import Mathlib

/-!
# jointo: joining strings and byte slices straight into an `io.Writer`

A shallow embedding of `jointo.go` (functions `cvt`, `String`, `Bytes`) and of the
sinks of `jointo_test.go`, followed by theorems about them.

Modelling conventions.

* Go's `int` and `int64` are both 64-bit two's complement integers (a 64-bit
  platform): the type `I64`, whose arithmetic wraps modulo `2^64`.
* A Go `string` and a Go `[]byte` are both finite byte sequences, `List UInt8`;
  the conversion `[]byte(s)` keeps the bytes (`toBytes`).
* An `io.Writer` is a state machine: a state type `σ` and the methods as state
  transformers.  The optional methods `WriteString` and `Grow`, which the code
  finds by type assertion, are `Option`-valued fields.  A Go `error` is a value
  of an arbitrary type `E`, and `nil` is `none`.
* Methods are total: a sink that panics is outside the model.
-/

namespace jointo

/-! ## Machine integers -/

/-- Two's complement reduction of an integer into the range of `int64`. -/
def wrap64 (x : Int) : Int :=
  (x + 9223372036854775808) % 18446744073709551616 - 9223372036854775808

/-- A 64-bit signed integer: Go's `int64`, and Go's `int` on a 64-bit platform. -/
structure I64 where
  val : Int
  lo : -9223372036854775808 ≤ val
  hi : val < 9223372036854775808
deriving DecidableEq

/-- Conversion of an integer to `I64`, wrapping. -/
def I64.ofInt (x : Int) : I64 :=
  ⟨wrap64 x, by unfold wrap64; omega, by unfold wrap64; omega⟩

/-- Go's `+` on `int` / `int64`. -/
def I64.add (a b : I64) : I64 := I64.ofInt (a.val + b.val)

/-- Go's `-` on `int` / `int64`. -/
def I64.sub (a b : I64) : I64 := I64.ofInt (a.val - b.val)

/-- Go's `*` on `int` / `int64`. -/
def I64.mul (a b : I64) : I64 := I64.ofInt (a.val * b.val)

instance : Add I64 := ⟨I64.add⟩
instance : Sub I64 := ⟨I64.sub⟩
instance : Mul I64 := ⟨I64.mul⟩
instance : OfNat I64 n := ⟨I64.ofInt n⟩
instance : Inhabited I64 := ⟨0⟩

/-- Go's builtin `len` on a string or a slice; the result is an `int`. -/
def len {α : Type} (xs : List α) : I64 := I64.ofInt xs.length

/-! ## Strings, byte slices and sinks -/

/-- A Go `string`: an immutable sequence of bytes. -/
abbrev GoString := List UInt8

/-- A Go `[]byte`. -/
abbrev ByteSlice := List UInt8

/-- The conversion `[]byte(s)`. -/
def toBytes (s : GoString) : ByteSlice := s

/-- What a write method returns, next to the new state of the sink: `(n int, err error)`. -/
abbrev WriteFn (σ E : Type) := σ → List UInt8 → σ × I64 × Option E

/-- An `io.Writer` with the optional methods the code probes for:
`io.StringWriter` (`WriteString`) and `interface{ Grow(int) }`. -/
structure Sink (σ E : Type) where
  Write : WriteFn σ E
  WriteString : Option (WriteFn σ E)
  Grow : Option (σ → I64 → σ)

/-- `cvt` (jointo.go, lines 12-14): `return int64(n), err`. -/
def cvt {E : Type} (n : I64) (err : Option E) : I64 × Option E := (n, err)

/-- The standard library's `io.WriteString(w, s)`: `w.WriteString(s)` when `w` is an
`io.StringWriter`, `w.Write([]byte(s))` otherwise. -/
def ioWriteString {σ E : Type} (w : Sink σ E) (st : σ) (s : GoString) : σ × I64 × Option E :=
  match w.WriteString with
  | some ws => ws st s
  | none => w.Write st (toBytes s)

/-- The reservation hint (jointo.go, lines 30-33 and 99-102):
`n := len(sep) * (len(elems) - 1); for i := ... { n += len(elems[i]) }`. -/
def growHint (elems : List (List UInt8)) (sep : List UInt8) : I64 :=
  elems.foldl (fun n e => n + len e) (len sep * (len elems - 1))

/-- The reservation step (jointo.go, lines 29-36 and 98-105): `Grow(n)` when the sink has
the method, nothing otherwise. -/
def reserve {σ E : Type} (w : Sink σ E) (st : σ) (elems : List (List UInt8))
    (sep : List UInt8) : σ :=
  match w.Grow with
  | some grow => grow st (growHint elems sep)
  | none => st

/-- The loop `for _, elem := range elems[1:]` (jointo.go, lines 47-59, 67-79, 112-123) over
the write method `wr` bound before the loop: write the separator, then the element, add
each reported count to `written`, and return at the first non-nil error; line 82 / 125
(`return written, nil`) when the range is exhausted. -/
def writeRest {σ E : Type} (wr : WriteFn σ E) (sep : List UInt8) :
    σ → I64 → List (List UInt8) → σ × I64 × Option E
  | st, written, [] => (st, written, none)
  | st, written, elem :: rest =>
    match wr st sep with
    | (st1, n, some err) => (st1, written + n, some err)
    | (st1, n, none) =>
      match wr st1 elem with
      | (st2, m, some err) => (st2, written + n + m, some err)
      | (st2, m, none) => writeRest wr sep st2 (written + n + m) rest

/-- The sequential write (jointo.go, lines 42-59, 61-79, 107-123) over the write method
`wr`: the first element, then the loop; `written` starts at zero. -/
def writeJoined {σ E : Type} (wr : WriteFn σ E) (st : σ) (first : List UInt8)
    (rest : List (List UInt8)) (sep : List UInt8) : σ × I64 × Option E :=
  match wr st first with
  | (st1, n, some err) => (st1, 0 + n, some err)
  | (st1, n, none) => writeRest wr sep st1 (0 + n) rest

/-- `String` (jointo.go, lines 20-83).  The result is the state of the sink after the
call, `written` and `err`. -/
def String {σ E : Type} (w : Sink σ E) (st : σ) (elems : List GoString) (sep : GoString) :
    σ × I64 × Option E :=
  match elems with
  | [] => (st, 0, none)
  | [e] =>
    match ioWriteString w st e with
    | (st1, n, err) => (st1, cvt n err)
  | first :: second :: more =>
    let st0 := reserve w st (first :: second :: more) sep
    match w.WriteString with
    | some sw => writeJoined sw st0 first (second :: more) sep
    | none =>
      writeJoined w.Write st0 (toBytes first) ((second :: more).map toBytes) (toBytes sep)

/-- `Bytes` (jointo.go, lines 89-126).  The result is the state of the sink after the
call, `written` and `err`. -/
def Bytes {σ E : Type} (w : Sink σ E) (st : σ) (elems : List ByteSlice) (sep : ByteSlice) :
    σ × I64 × Option E :=
  match elems with
  | [] => (st, 0, none)
  | [e] =>
    match w.Write st e with
    | (st1, n, err) => (st1, cvt n err)
  | first :: second :: more =>
    let st0 := reserve w st (first :: second :: more) sep
    writeJoined w.Write st0 first (second :: more) sep

/-! ## The sinks of the test file -/

/-- A sink over a write method and a `Grow` method, exposing `Grow` and `WriteString` or
not, as the wrappers `noGrow`, `noWriteString` and `justWriter` do over a `bytes.Buffer`
(jointo_test.go, lines 25-55); `WriteString(s)` behaves as `Write([]byte(s))`. -/
def sinkOf {σ E : Type} (wr : WriteFn σ E) (grow : σ → I64 → σ)
    (hasGrow hasWriteString : Bool) : Sink σ E where
  Write := wr
  WriteString := if hasWriteString then some wr else none
  Grow := if hasGrow then some grow else none

/-- `(*bytes.Buffer).Write` and `WriteString` of the standard library, on the content of
the buffer: append the data, report its length and no error. -/
def bufferWrite {E : Type} : WriteFn (List UInt8) E :=
  fun buf p => (buf ++ p, len p, none)

/-- `(*bytes.Buffer).Grow` of the standard library, on the content of the buffer: the
capacity changes, the content does not. -/
def bufferGrow (buf : List UInt8) (_n : I64) : List UInt8 := buf

/-- The four writers of `TestString` (jointo_test.go, lines 68-76) over one buffer:
`buffer` is `testWriter true true`, `noGrow` is `testWriter false true`, `noWriteString`
is `testWriter true false` and `justWriter` is `testWriter false false`. -/
def testWriter (E : Type) (hasGrow hasWriteString : Bool) : Sink (List UInt8) E :=
  sinkOf bufferWrite bufferGrow hasGrow hasWriteString

/-- The writer `buf` of `TestString`: a `*bytes.Buffer`, with `Grow` and `WriteString`. -/
def buffer (E : Type) : Sink (List UInt8) E := testWriter E true true

/-- The writer `noGrow` (jointo_test.go, lines 25-35): `Write` and `WriteString`. -/
def noGrow (E : Type) : Sink (List UInt8) E := testWriter E false true

/-- The writer `noWriteString` (jointo_test.go, lines 37-47): `Grow` and `Write`. -/
def noWriteString (E : Type) : Sink (List UInt8) E := testWriter E true false

/-- The writer `justWriter` (jointo_test.go, lines 49-55): `Write` only. -/
def justWriter (E : Type) : Sink (List UInt8) E := testWriter E false false

/-- The table `writers` of `TestString` (jointo_test.go, lines 68-76). -/
def writers (E : Type) : List (Sink (List UInt8) E) :=
  [buffer E, noGrow E, noWriteString E, justWriter E]

/-- The error of `limitedWriter`. -/
inductive TestError where
  | full
deriving DecidableEq

/-- A failing sink for concrete runs: a buffer that holds at most `cap` bytes.  A write
appends the bytes that still fit and reports their number, with the error `full` when
some did not fit. -/
def limitedWrite (cap : Nat) : WriteFn (List UInt8) TestError :=
  fun buf p =>
    let m := min p.length (cap - buf.length)
    (buf ++ p.take m, I64.ofInt m, if m < p.length then some TestError.full else none)

/-- The bounded buffer as a sink, with or without the optional methods. -/
def limitedWriter (cap : Nat) (hasGrow hasWriteString : Bool) : Sink (List UInt8) TestError :=
  sinkOf (limitedWrite cap) bufferGrow hasGrow hasWriteString

/-- `cvtElems` (jointo_test.go, lines 57-62). -/
def cvtElems (v : List GoString) : List ByteSlice := v.map toBytes

/-! ## Reference join -/

/-- The standard library's `strings.Join(elems, sep)` and `bytes.Join(elems, sep)`:
`elems[0] + sep + elems[1] + ... + sep + elems[n-1]`, nothing for no element. -/
def join : List (List UInt8) → List UInt8 → List UInt8
  | [], _ => []
  | [e], _ => e
  | e :: rest, sep => e ++ sep ++ join rest sep

/-- The byte length of the joined output as the specification writes it: the sum of the
element lengths plus the separator length times the number of elements minus one, and `0`
for no element. -/
def totalLen (elems : List (List UInt8)) (sep : List UInt8) : Nat :=
  if elems = [] then 0 else (elems.map List.length).sum + sep.length * (elems.length - 1)

/-! ## Recording sinks -/

/-- One call on a sink: its argument and, for a write, the count and the error the sink
reported. -/
inductive Call (E : Type) where
  | write (p : ByteSlice) (n : I64) (err : Option E)
  | writeString (s : GoString) (n : I64) (err : Option E)
  | grow (n : I64)
deriving DecidableEq

/-- Whether the call is a `Write` or a `WriteString`. -/
def Call.isWrite {E : Type} : Call E → Bool
  | Call.grow _ => false
  | _ => true

/-- The data a write call was given (nothing for `Grow`). -/
def Call.arg {E : Type} : Call E → List UInt8
  | Call.write p _ _ => p
  | Call.writeString s _ _ => s
  | Call.grow _ => []

/-- The count a write call reported (zero for `Grow`, which reports nothing). -/
def Call.count {E : Type} : Call E → I64
  | Call.write _ n _ => n
  | Call.writeString _ n _ => n
  | Call.grow _ => 0

/-- The error a write call reported (`Grow` has no error channel). -/
def Call.err {E : Type} : Call E → Option E
  | Call.write _ _ err => err
  | Call.writeString _ _ err => err
  | Call.grow _ => none

/-- The write calls of a log, in call order. -/
def writes {E : Type} (log : List (Call E)) : List (Call E) := log.filter Call.isWrite

/-- The arguments of the `Grow` calls of a log, in call order. -/
def grows {E : Type} (log : List (Call E)) : List I64 :=
  log.filterMap (fun c => match c with
    | Call.grow n => some n
    | _ => none)

/-- A write method that also appends the call to a log. -/
def recordWrite {σ E : Type} (mk : List UInt8 → I64 → Option E → Call E) (wr : WriteFn σ E) :
    WriteFn (σ × List (Call E)) E :=
  fun st p =>
    match wr st.1 p with
    | (st1, n, err) => ((st1, st.2 ++ [mk p n err]), n, err)

/-- The sink `w` with a log of the calls made on it: the same methods are present, each
behaves as on `w` and appends itself to the log. -/
def record {σ E : Type} (w : Sink σ E) : Sink (σ × List (Call E)) E where
  Write := recordWrite Call.write w.Write
  WriteString := w.WriteString.map (recordWrite Call.writeString)
  Grow := w.Grow.map (fun grow st n => (grow st.1 n, st.2 ++ [Call.grow n]))

/-- The sum of counts in `int64` arithmetic. -/
def sum64 (ns : List I64) : I64 := ns.foldl (fun a n => a + n) 0

/-! ## The write sequence of a join -/

/-- The separator before each element: `[sep, e1, sep, e2, ...]` for `[e1, e2, ...]`. -/
def interleave (sep : List UInt8) : List (List UInt8) → List (List UInt8)
  | [] => []
  | e :: rest => sep :: e :: interleave sep rest

/-- The pieces of a join in output order: `[e0, sep, e1, ..., sep, e(n-1)]`, and no piece
for no element. -/
def pieces (elems : List (List UInt8)) (sep : List UInt8) : List (List UInt8) :=
  match elems with
  | [] => []
  | e :: rest => e :: interleave sep rest

/-- Writing pieces one call each, adding up the reported counts, up to and including the
first call that reports an error. -/
def writeSeq {σ E : Type} (wr : WriteFn σ E) : σ → I64 → List (List UInt8) → σ × I64 × Option E
  | st, written, [] => (st, written, none)
  | st, written, p :: ps =>
    match wr st p with
    | (st1, n, some err) => (st1, written + n, some err)
    | (st1, n, none) => writeSeq wr st1 (written + n) ps

/-- The calls `writeSeq` makes, each with what the sink reported. -/
def callsSeq {σ E : Type} (mk : List UInt8 → I64 → Option E → Call E) (wr : WriteFn σ E) :
    σ → List (List UInt8) → List (Call E)
  | _, [] => []
  | st, p :: ps =>
    match wr st p with
    | (_, n, some err) => [mk p n (some err)]
    | (st1, n, none) => mk p n none :: callsSeq mk wr st1 ps

/-- The error of the last call of a list of calls, `none` when there is no call. -/
def lastErr {E : Type} (cs : List (Call E)) : Option E :=
  match cs.getLast? with
  | some c => c.err
  | none => none

/-- The calls `String` makes on the sink `w` from the state `st`, as a function of the
input. -/
def stringCalls {σ E : Type} (w : Sink σ E) (st : σ) (elems : List GoString) (sep : GoString) :
    List (Call E) :=
  match elems with
  | [] => []
  | [e] =>
    match w.WriteString with
    | some sw => callsSeq Call.writeString sw st [e]
    | none => callsSeq Call.write w.Write st [toBytes e]
  | first :: second :: more =>
    (match w.Grow with
      | some _ => [Call.grow (growHint (first :: second :: more) sep)]
      | none => []) ++
    (match w.WriteString with
      | some sw =>
        callsSeq Call.writeString sw (reserve w st (first :: second :: more) sep)
          (pieces (first :: second :: more) sep)
      | none =>
        callsSeq Call.write w.Write (reserve w st (first :: second :: more) sep)
          (pieces ((first :: second :: more).map toBytes) (toBytes sep)))

/-- The calls `Bytes` makes on the sink `w` from the state `st`, as a function of the
input. -/
def bytesCalls {σ E : Type} (w : Sink σ E) (st : σ) (elems : List ByteSlice) (sep : ByteSlice) :
    List (Call E) :=
  match elems with
  | [] => []
  | [e] => callsSeq Call.write w.Write st [e]
  | first :: second :: more =>
    (match w.Grow with
      | some _ => [Call.grow (growHint (first :: second :: more) sep)]
      | none => []) ++
    callsSeq Call.write w.Write (reserve w st (first :: second :: more) sep)
      (pieces (first :: second :: more) sep)

/-- The write method `String` uses for every write: `WriteString` when the sink has it,
`Write` otherwise. -/
def stringWrite {σ E : Type} (w : Sink σ E) : WriteFn σ E :=
  match w.WriteString with
  | some sw => sw
  | none => w.Write

/-- The constructor of the log entry of the write method `String` uses. -/
def stringMk {σ E : Type} (w : Sink σ E) : List UInt8 → I64 → Option E → Call E :=
  match w.WriteString with
  | some _ => Call.writeString
  | none => Call.write

/-- The state of the sink before the first write: after the reservation for two elements
or more, the initial state otherwise. -/
def preState {σ E : Type} (w : Sink σ E) (st : σ) (elems : List (List UInt8))
    (sep : List UInt8) : σ :=
  match elems with
  | _ :: _ :: _ => reserve w st elems sep
  | _ => st

/-- The `Grow` calls of a join: one for two elements or more on a sink with `Grow`. -/
def growCalls {σ E : Type} (w : Sink σ E) (elems : List (List UInt8)) (sep : List UInt8) :
    List (Call E) :=
  match elems, w.Grow with
  | _ :: _ :: _, some _ => [Call.grow (growHint elems sep)]
  | _, _ => []

/-- A constructor of log entries that builds a write call from its data and result. -/
def IsWriteMk {E : Type} (mk : List UInt8 → I64 → Option E → Call E) : Prop :=
  ∀ p n e, (mk p n e).isWrite = true ∧ (mk p n e).arg = p ∧ (mk p n e).count = n ∧
    (mk p n e).err = e

/-! ## Sinks that append -/

/-- A sink that appends all the bytes it is given and never reports an error: `content`
reads the bytes the sink holds; `Write`, and `WriteString` when present, append their
data and report no error; `Grow`, when present, leaves the bytes alone. -/
structure AppendSink {σ E : Type} (w : Sink σ E) (content : σ → List UInt8) : Prop where
  write : ∀ st p, content (w.Write st p).1 = content st ++ p ∧ (w.Write st p).2.2 = none
  writeString : ∀ sw, w.WriteString = some sw →
    ∀ st s, content (sw st s).1 = content st ++ s ∧ (sw st s).2.2 = none
  grow : ∀ g, w.Grow = some g → ∀ st n, content (g st n) = content st

/-- A sink whose writes each report the full length of the data given and no error. -/
structure FullCountSink {σ E : Type} (w : Sink σ E) : Prop where
  write : ∀ st p, (w.Write st p).2 = (len p, none)
  writeString : ∀ sw, w.WriteString = some sw → ∀ st s, (sw st s).2 = (len s, none)

/-- The elements of the test table: `[]string{"x", "y", "z"}` (jointo_test.go, line 20). -/
def xyz : List (List UInt8) := [[120], [121], [122]]

/-- The separator of the test table: `"/"` (jointo_test.go, line 21). -/
def slash : List UInt8 := [47]

/-- A finished call on a recording sink: the log is the `Grow` calls followed by the calls
of a write sequence, and the count and the error are those of that write sequence. -/
def IsRun {σ E : Type} (r : (σ × List (Call E)) × I64 × Option E) : Prop :=
  ∃ (τ : Type) (mk : List UInt8 → I64 → Option E → Call E) (wr : WriteFn τ E) (st : τ)
    (ps : List (List UInt8)) (glog : List (Call E)),
    IsWriteMk mk ∧ writes glog = [] ∧ r.1.2 = glog ++ callsSeq mk wr st ps ∧
      r.2 = (writeSeq wr st 0 ps).2

/-! ## The call sequence -/

/-- A sink none of whose writes reports an error. -/
structure NoErrorSink {σ E : Type} (w : Sink σ E) : Prop where
  write : ∀ st p, (w.Write st p).2.2 = none
  writeString : ∀ sw, w.WriteString = some sw → ∀ st s, (sw st s).2.2 = none

/-! ## Sinks with partial writes -/

/-- A sink each of whose writes reports an accepted count between `0` and the length of the
data it was given. -/
structure BoundedCountSink {σ E : Type} (w : Sink σ E) : Prop where
  write : ∀ st p, 0 ≤ (w.Write st p).2.1.val ∧ (w.Write st p).2.1.val ≤ p.length
  writeString : ∀ sw, w.WriteString = some sw →
    ∀ st s, 0 ≤ (sw st s).2.1.val ∧ (sw st s).2.1.val ≤ s.length

/-- What the `io.Writer` contract asks of one write on an append buffer: it appends the
first `m` bytes of the data for some `m` up to the length, reports `m`, and reports a
non-nil error whenever `m` is less than the length. -/
def ObeysContract {σ E : Type} (content : σ → List UInt8) (wr : WriteFn σ E) : Prop :=
  ∀ st p, ∃ m : Nat, m ≤ p.length ∧ content (wr st p).1 = content st ++ p.take m ∧
    (wr st p).2.1 = I64.ofInt m ∧ (m < p.length → (wr st p).2.2 ≠ none)

/-- A sink that obeys the `io.Writer` contract on an append buffer: `Write`, and
`WriteString` when present, obey the contract, and `Grow`, when present, leaves the bytes
alone. -/
structure ContractSink {σ E : Type} (w : Sink σ E) (content : σ → List UInt8) : Prop where
  write : ObeysContract content w.Write
  writeString : ∀ sw, w.WriteString = some sw → ObeysContract content sw
  grow : ∀ g, w.Grow = some g → ∀ st n, content (g st n) = content st

/-- A sink for concrete runs that breaks the `io.Writer` contract: each write keeps at most
the first byte of its data and reports that count without an error. -/
def shortWrite {E : Type} : WriteFn (List UInt8) E :=
  fun buf p => (buf ++ p.take 1, len (p.take 1), none)

/-- The short-writing buffer as a sink, with or without the optional methods. -/
def shortWriter (E : Type) (hasGrow hasWriteString : Bool) : Sink (List UInt8) E :=
  sinkOf shortWrite bufferGrow hasGrow hasWriteString

/-- The elements `["xx", "yy"]`. -/
def xxyy : List (List UInt8) := [[120, 120], [121, 121]]

/-! ## Which method a call went through -/

/-- Whether the call is a `WriteString`. -/
def Call.viaWriteString {E : Type} : Call E → Bool
  | Call.writeString _ _ _ => true
  | _ => false

/-- Whether the call is a `Write`. -/
def Call.viaWrite {E : Type} : Call E → Bool
  | Call.write _ _ _ => true
  | _ => false

/-- The sink `w` with another `WriteString` method, or none. -/
def withWriteString {σ E : Type} (w : Sink σ E) (ws : Option (WriteFn σ E)) : Sink σ E where
  Write := w.Write
  WriteString := ws
  Grow := w.Grow

/-- The sink `w` with another `Grow` method, or none. -/
def withGrow {σ E : Type} (w : Sink σ E) (g : Option (σ → I64 → σ)) : Sink σ E where
  Write := w.Write
  WriteString := w.WriteString
  Grow := g

/-- A sink for concrete runs whose `WriteString` differs from its `Write`: `Write` appends
the data, `WriteString` drops it and reports the error `full`. -/
def splitWriter : Sink (List UInt8) TestError where
  Write := bufferWrite
  WriteString := some (fun buf _ => (buf, 0, some TestError.full))
  Grow := some bufferGrow

theorem wrap64_lo (x : Int) : -9223372036854775808 ≤ wrap64 x := by
  unfold wrap64; omega

theorem wrap64_hi (x : Int) : wrap64 x < 9223372036854775808 := by
  unfold wrap64; omega

/-! ## Arithmetic of `I64` -/

theorem I64.ext {a b : I64} (h : a.val = b.val) : a = b := by
  cases a; cases b; simp only [I64.mk.injEq]; exact h

theorem I64.add_val (a b : I64) : (a + b).val = wrap64 (a.val + b.val) := rfl

theorem I64.sub_val (a b : I64) : (a - b).val = wrap64 (a.val - b.val) := rfl

theorem I64.mul_val (a b : I64) : (a * b).val = wrap64 (a.val * b.val) := rfl

theorem I64.ofInt_val (x : Int) : (I64.ofInt x).val = wrap64 x := rfl

theorem I64.zero_val : (0 : I64).val = 0 := by decide

theorem I64.one_val : (1 : I64).val = 1 := by decide

theorem wrap64_of_range {x : Int} (h1 : -9223372036854775808 ≤ x)
    (h2 : x < 9223372036854775808) : wrap64 x = x := by
  unfold wrap64; omega

theorem wrap64_val (a : I64) : wrap64 a.val = a.val := wrap64_of_range a.lo a.hi

theorem wrap64_modEq (x : Int) : wrap64 x ≡ x [ZMOD 18446744073709551616] := by
  unfold Int.ModEq wrap64; omega

theorem wrap64_congr {x y : Int} (h : x ≡ y [ZMOD 18446744073709551616]) :
    wrap64 x = wrap64 y := by
  unfold Int.ModEq at h; unfold wrap64; omega

theorem wrap64_add_left (x y : Int) : wrap64 (wrap64 x + y) = wrap64 (x + y) :=
  wrap64_congr ((wrap64_modEq x).add_right y)

theorem wrap64_add_right (x y : Int) : wrap64 (x + wrap64 y) = wrap64 (x + y) :=
  wrap64_congr ((wrap64_modEq y).add_left x)

theorem I64.zero_add (a : I64) : 0 + a = a := by
  apply I64.ext; rw [I64.add_val, I64.zero_val, Int.zero_add, wrap64_val]

theorem I64.add_zero (a : I64) : a + 0 = a := by
  apply I64.ext; rw [I64.add_val, I64.zero_val, Int.add_zero, wrap64_val]

theorem I64.add_assoc (a b c : I64) : a + b + c = a + (b + c) := by
  apply I64.ext
  rw [I64.add_val, I64.add_val, I64.add_val, I64.add_val, wrap64_add_left, wrap64_add_right,
    Int.add_assoc]

theorem I64.ofInt_add (x y : Int) : I64.ofInt x + I64.ofInt y = I64.ofInt (x + y) := by
  apply I64.ext
  rw [I64.add_val, I64.ofInt_val, I64.ofInt_val, I64.ofInt_val, wrap64_add_left,
    wrap64_add_right]

theorem I64.add_ofInt (a : I64) (y : Int) : a + I64.ofInt y = I64.ofInt (a.val + y) := by
  apply I64.ext
  rw [I64.add_val, I64.ofInt_val, I64.ofInt_val, wrap64_add_right]

theorem I64.ofInt_self (a : I64) : I64.ofInt a.val = a := I64.ext (wrap64_val a)

theorem foldl_add_eq (ns : List I64) (a : I64) :
    ns.foldl (fun x n => x + n) a = a + sum64 ns := by
  induction ns generalizing a with
  | nil => simp [sum64, I64.add_zero]
  | cons n ns ih =>
    have h0 := ih (0 + n)
    have h1 := ih (a + n)
    simp only [sum64, List.foldl_cons] at h0 ⊢
    rw [h1, h0, I64.zero_add, I64.add_assoc]
    rfl

theorem sum64_nil : sum64 ([] : List I64) = 0 := rfl

theorem sum64_cons (n : I64) (ns : List I64) : sum64 (n :: ns) = n + sum64 ns := by
  simp only [sum64, List.foldl_cons]
  rw [foldl_add_eq, I64.zero_add]
  rfl

theorem sum64_val (ns : List I64) : (sum64 ns).val = wrap64 ((ns.map I64.val).sum) := by
  induction ns with
  | nil => simp [sum64_nil, I64.zero_val, wrap64]
  | cons n ns ih =>
    rw [sum64_cons, I64.add_val, ih, wrap64_add_right]
    simp

/-! ## The code as a write sequence -/

theorem writeRest_eq_writeSeq {σ E : Type} (wr : WriteFn σ E) (sep : List UInt8)
    (rest : List (List UInt8)) (st : σ) (acc : I64) :
    writeRest wr sep st acc rest = writeSeq wr st acc (interleave sep rest) := by
  induction rest generalizing st acc with
  | nil => rfl
  | cons e rest ih =>
    simp only [writeRest, interleave, writeSeq]
    rcases h1 : wr st sep with ⟨st1, n, _ | err⟩
    · simp only []
      rcases h2 : wr st1 e with ⟨st2, m, _ | err⟩
      · simp only []
        exact ih st2 (acc + n + m)
      · rfl
    · rfl

theorem writeJoined_eq_writeSeq {σ E : Type} (wr : WriteFn σ E) (st : σ) (first : List UInt8)
    (rest : List (List UInt8)) (sep : List UInt8) :
    writeJoined wr st first rest sep = writeSeq wr st 0 (first :: interleave sep rest) := by
  simp only [writeJoined, writeSeq]
  rcases h1 : wr st first with ⟨st1, n, _ | err⟩
  · simp only []
    exact writeRest_eq_writeSeq wr sep rest st1 (0 + n)
  · rfl

theorem writeSeq_record {σ E : Type} (mk : List UInt8 → I64 → Option E → Call E)
    (wr : WriteFn σ E) (ps : List (List UInt8)) (st : σ) (log : List (Call E)) (acc : I64) :
    writeSeq (recordWrite mk wr) (st, log) acc ps
      = (((writeSeq wr st acc ps).1, log ++ callsSeq mk wr st ps), (writeSeq wr st acc ps).2) := by
  induction ps generalizing st log acc with
  | nil => simp [writeSeq, callsSeq]
  | cons p ps ih =>
    simp only [writeSeq, callsSeq, recordWrite]
    rcases h1 : wr st p with ⟨st1, n, _ | err⟩
    · simp only []
      rw [ih]
      simp
    · simp

theorem reserve_record {σ E : Type} (w : Sink σ E) (st : σ) (log : List (Call E))
    (elems : List (List UInt8)) (sep : List UInt8) :
    reserve (record w) (st, log) elems sep
      = (reserve w st elems sep,
          log ++ (match w.Grow with
            | some _ => [Call.grow (growHint elems sep)]
            | none => [])) := by
  unfold reserve record
  cases h : w.Grow <;> simp

theorem single_record {σ E : Type} (mk : List UInt8 → I64 → Option E → Call E)
    (wr : WriteFn σ E) (st : σ) (log : List (Call E)) (p : List UInt8) :
    recordWrite mk wr (st, log) p
      = (((wr st p).1, log ++ callsSeq mk wr st [p]), (wr st p).2) := by
  simp only [recordWrite, callsSeq]
  rcases h1 : wr st p with ⟨st1, n, _ | err⟩ <;> rfl

theorem String_record {σ E : Type} (w : Sink σ E) (st : σ) (log : List (Call E))
    (elems : List GoString) (sep : GoString) :
    String (record w) (st, log) elems sep
      = (((String w st elems sep).1, log ++ stringCalls w st elems sep),
          (String w st elems sep).2) := by
  match elems with
  | [] => simp [String, stringCalls]
  | [e] =>
    simp only [String, stringCalls, ioWriteString, cvt]
    cases h : w.WriteString with
    | none =>
      have h2 : (record w).WriteString = none := by simp [record, h]
      rw [h2]
      simp only []
      exact single_record Call.write w.Write st log (toBytes e)
    | some sw =>
      have h2 : (record w).WriteString = some (recordWrite Call.writeString sw) := by
        simp [record, h]
      rw [h2]
      simp only []
      exact single_record Call.writeString sw st log e
  | first :: second :: more =>
    simp only [String, stringCalls, reserve_record, writeJoined_eq_writeSeq]
    cases h : w.WriteString with
    | none =>
      have h2 : (record w).WriteString = none := by simp [record, h]
      have h3 : (record w).Write = recordWrite Call.write w.Write := rfl
      rw [h2, h3]
      simp only [writeSeq_record, pieces, List.map_cons, List.append_assoc]
    | some sw =>
      have h2 : (record w).WriteString = some (recordWrite Call.writeString sw) := by
        simp [record, h]
      rw [h2]
      simp only [writeSeq_record, pieces, List.append_assoc]

theorem Bytes_record {σ E : Type} (w : Sink σ E) (st : σ) (log : List (Call E))
    (elems : List ByteSlice) (sep : ByteSlice) :
    Bytes (record w) (st, log) elems sep
      = (((Bytes w st elems sep).1, log ++ bytesCalls w st elems sep),
          (Bytes w st elems sep).2) := by
  match elems with
  | [] => simp [Bytes, bytesCalls]
  | [e] =>
    simp only [Bytes, bytesCalls, cvt]
    exact single_record Call.write w.Write st log e
  | first :: second :: more =>
    have h3 : (record w).Write = recordWrite Call.write w.Write := rfl
    simp only [Bytes, bytesCalls, reserve_record, writeJoined_eq_writeSeq, h3,
      writeSeq_record, pieces, List.append_assoc]

theorem isWriteMk_write {E : Type} : IsWriteMk (Call.write : _ → _ → _ → Call E) :=
  fun _ _ _ => ⟨rfl, rfl, rfl, rfl⟩

theorem isWriteMk_writeString {E : Type} : IsWriteMk (Call.writeString : _ → _ → _ → Call E) :=
  fun _ _ _ => ⟨rfl, rfl, rfl, rfl⟩

theorem isWriteMk_stringMk {σ E : Type} (w : Sink σ E) : IsWriteMk (stringMk w) := by
  unfold stringMk
  cases w.WriteString
  · exact isWriteMk_write
  · exact isWriteMk_writeString

theorem map_toBytes (xs : List GoString) : xs.map toBytes = xs := by
  induction xs with
  | nil => rfl
  | cons x xs ih => simp [toBytes, ih]

theorem writeSeq_single {σ E : Type} (wr : WriteFn σ E) (st : σ) (p : List UInt8) :
    writeSeq wr st 0 [p] = wr st p := by
  simp only [writeSeq]
  rcases h1 : wr st p with ⟨st1, n, _ | err⟩ <;> simp [I64.zero_add]

theorem String_eq_writeSeq {σ E : Type} (w : Sink σ E) (st : σ) (elems : List GoString)
    (sep : GoString) :
    String w st elems sep
      = writeSeq (stringWrite w) (preState w st elems sep) 0 (pieces elems sep) := by
  match elems with
  | [] => rfl
  | [e] =>
    simp only [String, pieces, interleave, preState, writeSeq_single, ioWriteString, cvt,
      stringWrite, toBytes]
    cases w.WriteString <;> rfl
  | first :: second :: more =>
    simp only [String, preState, writeJoined_eq_writeSeq, stringWrite, pieces, map_toBytes,
      toBytes]
    cases w.WriteString <;> rfl

theorem Bytes_eq_writeSeq {σ E : Type} (w : Sink σ E) (st : σ) (elems : List ByteSlice)
    (sep : ByteSlice) :
    Bytes w st elems sep = writeSeq w.Write (preState w st elems sep) 0 (pieces elems sep) := by
  match elems with
  | [] => rfl
  | [e] => simp only [Bytes, pieces, interleave, preState, writeSeq_single, cvt]
  | first :: second :: more =>
    simp only [Bytes, preState, writeJoined_eq_writeSeq, pieces]

theorem stringCalls_eq {σ E : Type} (w : Sink σ E) (st : σ) (elems : List GoString)
    (sep : GoString) :
    stringCalls w st elems sep
      = growCalls w elems sep
          ++ callsSeq (stringMk w) (stringWrite w) (preState w st elems sep) (pieces elems sep) := by
  match elems with
  | [] => simp [stringCalls, growCalls, pieces, callsSeq]
  | [e] =>
    simp only [stringCalls, growCalls, pieces, interleave, preState, stringMk, stringWrite,
      toBytes]
    cases w.WriteString <;> simp
  | first :: second :: more =>
    simp only [stringCalls, growCalls, preState, stringMk, stringWrite, map_toBytes, toBytes]
    cases w.WriteString <;> cases w.Grow <;> simp

theorem bytesCalls_eq {σ E : Type} (w : Sink σ E) (st : σ) (elems : List ByteSlice)
    (sep : ByteSlice) :
    bytesCalls w st elems sep
      = growCalls w elems sep
          ++ callsSeq Call.write w.Write (preState w st elems sep) (pieces elems sep) := by
  match elems with
  | [] => simp [bytesCalls, growCalls, pieces, callsSeq]
  | [e] => simp only [bytesCalls, growCalls, pieces, interleave, preState, List.nil_append]
  | first :: second :: more =>
    simp only [bytesCalls, growCalls, preState]
    cases w.Grow <;> simp

/-! ## Facts about a write sequence -/

theorem writes_callsSeq {σ E : Type} {mk : List UInt8 → I64 → Option E → Call E}
    (hmk : IsWriteMk mk) (wr : WriteFn σ E) (ps : List (List UInt8)) (st : σ) :
    writes (callsSeq mk wr st ps) = callsSeq mk wr st ps := by
  induction ps generalizing st with
  | nil => rfl
  | cons p ps ih =>
    simp only [callsSeq]
    rcases h1 : wr st p with ⟨st1, n, _ | err⟩
    · simp only [writes, List.filter_cons, (hmk p n none).1, if_true]
      congr 1
      exact ih st1
    · simp [writes, (hmk p n (some err)).1]

theorem grows_callsSeq {σ E : Type} {mk : List UInt8 → I64 → Option E → Call E}
    (hmk : IsWriteMk mk) (wr : WriteFn σ E) (ps : List (List UInt8)) (st : σ) :
    grows (callsSeq mk wr st ps) = [] := by
  have key : ∀ p n e, (match mk p n e with
      | Call.grow k => some k
      | _ => none) = none := by
    intro p n e
    have h := (hmk p n e).1
    cases hc : mk p n e <;> simp_all [Call.isWrite]
  induction ps generalizing st with
  | nil => rfl
  | cons p ps ih =>
    simp only [callsSeq]
    rcases h1 : wr st p with ⟨st1, n, _ | err⟩
    · simp only [grows, List.filterMap_cons, key]
      exact ih st1
    · simp [grows, key]

theorem writes_growCalls {σ E : Type} (w : Sink σ E) (elems : List (List UInt8))
    (sep : List UInt8) : writes (growCalls w elems sep : List (Call E)) = [] := by
  unfold growCalls
  split <;> simp [writes, Call.isWrite]

theorem writeSeq_count {σ E : Type} {mk : List UInt8 → I64 → Option E → Call E}
    (hmk : IsWriteMk mk) (wr : WriteFn σ E) (ps : List (List UInt8)) (st : σ) (acc : I64) :
    (writeSeq wr st acc ps).2.1 = acc + sum64 ((callsSeq mk wr st ps).map Call.count) := by
  induction ps generalizing st acc with
  | nil => simp [writeSeq, callsSeq, sum64_nil, I64.add_zero]
  | cons p ps ih =>
    simp only [writeSeq, callsSeq]
    rcases h1 : wr st p with ⟨st1, n, _ | err⟩
    · simp only [List.map_cons, sum64_cons, (hmk p n none).2.2.1]
      rw [ih, I64.add_assoc]
    · simp [sum64_cons, sum64_nil, (hmk p n (some err)).2.2.1, I64.add_zero]

theorem writeSeq_err {σ E : Type} {mk : List UInt8 → I64 → Option E → Call E}
    (hmk : IsWriteMk mk) (wr : WriteFn σ E) (ps : List (List UInt8)) (st : σ) (acc : I64) :
    (writeSeq wr st acc ps).2.2 = lastErr (callsSeq mk wr st ps) := by
  induction ps generalizing st acc with
  | nil => simp [writeSeq, callsSeq, lastErr]
  | cons p ps ih =>
    simp only [writeSeq, callsSeq]
    rcases h1 : wr st p with ⟨st1, n, _ | err⟩
    · simp only []
      rw [ih st1 (acc + n)]
      cases hc : callsSeq mk wr st1 ps with
      | nil => simp [lastErr, (hmk p n none).2.2.2]
      | cons c cs => simp [lastErr, List.getLast?_cons_cons]
    · simp [lastErr, (hmk p n (some err)).2.2.2]

theorem callsSeq_err_last {σ E : Type} {mk : List UInt8 → I64 → Option E → Call E}
    (hmk : IsWriteMk mk) (wr : WriteFn σ E) (ps : List (List UInt8)) (st : σ)
    (k : Nat) (c : Call E) (hk : (callsSeq mk wr st ps)[k]? = some c) (hc : c.err ≠ none) :
    (callsSeq mk wr st ps).length = k + 1 := by
  induction ps generalizing st k with
  | nil => simp [callsSeq] at hk
  | cons p ps ih =>
    simp only [callsSeq] at hk ⊢
    rcases h1 : wr st p with ⟨st1, n, _ | err⟩
    · rw [h1] at hk
      simp only [] at hk ⊢
      cases k with
      | zero =>
        simp only [List.getElem?_cons_zero, Option.some.injEq] at hk
        rw [← hk, (hmk p n none).2.2.2] at hc
        exact absurd rfl hc
      | succ k =>
        simp only [List.getElem?_cons_succ] at hk
        simp [ih st1 k hk]
    · rw [h1] at hk
      simp only [] at hk ⊢
      cases k with
      | zero => rfl
      | succ k => simp at hk

theorem callsSeq_args {σ E : Type} {mk : List UInt8 → I64 → Option E → Call E}
    (hmk : IsWriteMk mk) (wr : WriteFn σ E) (hwr : ∀ st p, (wr st p).2.2 = none)
    (ps : List (List UInt8)) (st : σ) :
    (callsSeq mk wr st ps).map Call.arg = ps := by
  induction ps generalizing st with
  | nil => rfl
  | cons p ps ih =>
    simp only [callsSeq]
    have h := hwr st p
    rcases h1 : wr st p with ⟨st1, n, _ | err⟩
    · simp [(hmk p n none).2.1, ih st1]
    · rw [h1] at h
      simp at h

/-! ## The pieces and the reference join -/

theorem interleave_flatten (sep : List UInt8) (e : List UInt8) (rest : List (List UInt8)) :
    e ++ (interleave sep rest).flatten = join (e :: rest) sep := by
  induction rest generalizing e with
  | nil => simp [interleave, join]
  | cons e2 rest ih =>
    simp only [interleave, List.flatten_cons, join]
    rw [ih e2]
    simp

theorem pieces_flatten (elems : List (List UInt8)) (sep : List UInt8) :
    (pieces elems sep).flatten = join elems sep := by
  cases elems with
  | nil => rfl
  | cons e rest =>
    simp only [pieces, List.flatten_cons]
    exact interleave_flatten sep e rest

theorem interleave_length (sep : List UInt8) (rest : List (List UInt8)) :
    (interleave sep rest).length = 2 * rest.length := by
  induction rest with
  | nil => rfl
  | cons e rest ih => simp only [interleave, List.length_cons, ih]; omega

theorem pieces_length (elems : List (List UInt8)) (sep : List UInt8) :
    (pieces elems sep).length = 2 * elems.length - 1 := by
  cases elems with
  | nil => rfl
  | cons e rest => simp only [pieces, List.length_cons, interleave_length]; omega

theorem interleave_sum (sep : List UInt8) (rest : List (List UInt8)) :
    ((interleave sep rest).map List.length).sum
      = (rest.map List.length).sum + sep.length * rest.length := by
  induction rest with
  | nil => rfl
  | cons e rest ih =>
    simp only [interleave, List.map_cons, List.sum_cons, List.length_cons, ih, Nat.mul_succ]
    omega

theorem pieces_sum (elems : List (List UInt8)) (sep : List UInt8) :
    ((pieces elems sep).map List.length).sum = totalLen elems sep := by
  cases elems with
  | nil => rfl
  | cons e rest =>
    simp only [pieces, totalLen, List.map_cons, List.sum_cons, interleave_sum, List.length_cons]
    simp
    omega

theorem join_length (elems : List (List UInt8)) (sep : List UInt8) :
    (join elems sep).length = totalLen elems sep := by
  rw [← pieces_flatten, List.length_flatten, pieces_sum]

theorem appendSink_testWriter (E : Type) (hasGrow hasWriteString : Bool) :
    AppendSink (testWriter E hasGrow hasWriteString) id := by
  constructor
  · intro st p; exact ⟨rfl, rfl⟩
  · intro sw h st s
    cases hasWriteString
    · simp [testWriter, sinkOf] at h
    · simp only [testWriter, sinkOf, if_true, Option.some.injEq] at h
      subst h
      exact ⟨rfl, rfl⟩
  · intro g h st n
    cases hasGrow
    · simp [testWriter, sinkOf] at h
    · simp only [testWriter, sinkOf, if_true, Option.some.injEq] at h
      subst h
      rfl

theorem fullCountSink_testWriter (E : Type) (hasGrow hasWriteString : Bool) :
    FullCountSink (testWriter E hasGrow hasWriteString) := by
  constructor
  · intro st p; rfl
  · intro sw h st s
    cases hasWriteString
    · simp [testWriter, sinkOf] at h
    · simp only [testWriter, sinkOf, if_true, Option.some.injEq] at h
      subst h
      rfl

theorem appendSink_stringWrite {σ E : Type} {w : Sink σ E} {content : σ → List UInt8}
    (h : AppendSink w content) (st : σ) (p : List UInt8) :
    content (stringWrite w st p).1 = content st ++ p ∧ (stringWrite w st p).2.2 = none := by
  unfold stringWrite
  cases hs : w.WriteString with
  | none => exact h.write st p
  | some sw => exact h.writeString sw hs st p

theorem fullCountSink_stringWrite {σ E : Type} {w : Sink σ E} (h : FullCountSink w) (st : σ)
    (p : List UInt8) : (stringWrite w st p).2 = (len p, none) := by
  unfold stringWrite
  cases hs : w.WriteString with
  | none => exact h.write st p
  | some sw => exact h.writeString sw hs st p

theorem appendSink_preState {σ E : Type} {w : Sink σ E} {content : σ → List UInt8}
    (h : AppendSink w content) (st : σ) (elems : List (List UInt8)) (sep : List UInt8) :
    content (preState w st elems sep) = content st := by
  unfold preState
  split
  · unfold reserve
    cases hg : w.Grow with
    | none => rfl
    | some g => exact h.grow g hg st _
  · rfl

theorem writeSeq_append {σ E : Type} (wr : WriteFn σ E) (content : σ → List UInt8)
    (hwr : ∀ st p, content (wr st p).1 = content st ++ p ∧ (wr st p).2.2 = none)
    (ps : List (List UInt8)) (st : σ) (acc : I64) :
    content (writeSeq wr st acc ps).1 = content st ++ ps.flatten ∧
      (writeSeq wr st acc ps).2.2 = none := by
  induction ps generalizing st acc with
  | nil => simp [writeSeq]
  | cons p ps ih =>
    simp only [writeSeq]
    have h := hwr st p
    rcases h1 : wr st p with ⟨st1, n, _ | err⟩
    · rw [h1] at h
      simp only [] at h ⊢
      have h2 := ih st1 (acc + n)
      rw [h2.1, h.1]
      simp [h2.2]
    · rw [h1] at h
      simp at h

theorem writeSeq_fullCount {σ E : Type} (wr : WriteFn σ E)
    (hwr : ∀ st p, (wr st p).2 = (len p, none))
    (ps : List (List UInt8)) (st : σ) (acc : I64) :
    (writeSeq wr st acc ps).2 = (acc + I64.ofInt ((ps.map List.length).sum : Nat), none) := by
  induction ps generalizing st acc with
  | nil => simp [writeSeq, I64.add_ofInt, I64.ofInt_self]
  | cons p ps ih =>
    simp only [writeSeq]
    have h := hwr st p
    rcases h1 : wr st p with ⟨st1, n, _ | err⟩
    · rw [h1] at h
      simp only [Prod.mk.injEq, and_true] at h
      simp only []
      rw [ih st1 (acc + n), h, I64.add_assoc, len, I64.ofInt_add]
      simp
    · rw [h1] at h
      simp at h

/-! ## Round trip and byte count -/

theorem Bytes_fullCount {σ E : Type} (w : Sink σ E) (hn : FullCountSink w) (st : σ)
    (elems : List ByteSlice) (sep : ByteSlice) :
    (Bytes w st elems sep).2 = (I64.ofInt (totalLen elems sep), none) := by
  rw [Bytes_eq_writeSeq, writeSeq_fullCount w.Write hn.write, pieces_sum, I64.zero_add]

theorem String_fullCount {σ E : Type} (w : Sink σ E) (hn : FullCountSink w) (st : σ)
    (elems : List GoString) (sep : GoString) :
    (String w st elems sep).2 = (I64.ofInt (totalLen elems sep), none) := by
  rw [String_eq_writeSeq, writeSeq_fullCount (stringWrite w) (fullCountSink_stringWrite hn),
    pieces_sum, I64.zero_add]

theorem ofInt_val_of_lt (n : Nat) (h : n < 9223372036854775808) :
    (I64.ofInt (n : Int)).val = n := by
  rw [I64.ofInt_val]
  exact wrap64_of_range (by omega) (by omega)

/-- C1, the round trip of `String`: on a sink that appends all the bytes it is given and
never reports an error, with or without `Grow` and `WriteString` and whatever it already
holds, the bytes `String(w, elems, sep)` adds are exactly those of
`strings.Join(elems, sep)`, and the returned error is nil. -/
theorem String_round_trip {σ E : Type} (w : Sink σ E) (content : σ → List UInt8)
    (h : AppendSink w content) (st : σ) (elems : List GoString) (sep : GoString) :
    content (String w st elems sep).1 = content st ++ join elems sep ∧
      (String w st elems sep).2.2 = none := by
  have h1 := writeSeq_append (stringWrite w) content (appendSink_stringWrite h)
    (pieces elems sep) (preState w st elems sep) 0
  rw [pieces_flatten, appendSink_preState h] at h1
  rw [String_eq_writeSeq]
  exact h1

/-- The round trip of `String` on the test buffer with both optional methods, at
`["x", "y", "z"]` and `"/"`: the output is `"x/y/z"`. -/
theorem String_round_trip_witness :
    AppendSink (testWriter Unit true true) id ∧
      join xyz slash = [120, 47, 121, 47, 122] ∧
      (id (String (testWriter Unit true true) [] xyz slash).1 = id [] ++ join xyz slash ∧
        (String (testWriter Unit true true) [] xyz slash).2.2 = none) :=
  ⟨appendSink_testWriter Unit true true, by decide,
    String_round_trip (testWriter Unit true true) id (appendSink_testWriter Unit true true)
      [] xyz slash⟩

/-- C2, the round trip of `Bytes`: on a sink that appends all the bytes it is given,
reports their number and never reports an error, the bytes `Bytes(w, elems, sep)` adds are
exactly those of `bytes.Join(elems, sep)`, and the returned pair and the bytes added are
those of the single call `w.Write(bytes.Join(elems, sep))`: the pair is
`(len(bytes.Join(elems, sep)), nil)`, where `len` is the `int` Go gives, which is the
number of bytes of the join whenever the join is a Go value (fewer than `2^63` bytes). -/
theorem Bytes_round_trip {σ E : Type} (w : Sink σ E) (content : σ → List UInt8)
    (h : AppendSink w content) (hn : FullCountSink w) (st : σ) (elems : List ByteSlice)
    (sep : ByteSlice) :
    content (Bytes w st elems sep).1 = content st ++ join elems sep ∧
      (Bytes w st elems sep).2 = (len (join elems sep), none) ∧
      (Bytes w st elems sep).2 = (w.Write st (join elems sep)).2 ∧
      content (Bytes w st elems sep).1 = content (w.Write st (join elems sep)).1 ∧
      ((join elems sep).length < 9223372036854775808 →
        (Bytes w st elems sep).2.1.val = (join elems sep).length) := by
  have h1 := writeSeq_append w.Write content h.write (pieces elems sep)
    (preState w st elems sep) 0
  rw [pieces_flatten, appendSink_preState h, ← Bytes_eq_writeSeq] at h1
  have h2 : (Bytes w st elems sep).2 = (len (join elems sep), none) := by
    rw [Bytes_fullCount w hn, len, join_length]
  refine ⟨h1.1, h2, ?_, ?_, ?_⟩
  · rw [h2, hn.write]
  · rw [h1.1, (h.write st (join elems sep)).1]
  · intro hlt
    rw [h2]
    exact ofInt_val_of_lt _ hlt

/-- The round trip of `Bytes` on the test writer without optional methods, at
`["x", "y", "z"]` and `"/"`: the output is `"x/y/z"` and the count is 5. -/
theorem Bytes_round_trip_witness :
    AppendSink (testWriter Unit false false) id ∧
      FullCountSink (testWriter Unit false false) ∧
      (join xyz slash).length < 9223372036854775808 ∧
      (Bytes (testWriter Unit false false) [] xyz slash).1 = [120, 47, 121, 47, 122] ∧
      (Bytes (testWriter Unit false false) [] xyz slash).2.1.val = 5 :=
  ⟨appendSink_testWriter Unit false false, fullCountSink_testWriter Unit false false,
    by decide,
    (Bytes_round_trip (testWriter Unit false false) id (appendSink_testWriter Unit false false)
      (fullCountSink_testWriter Unit false false) [] xyz slash).1,
    (Bytes_round_trip (testWriter Unit false false) id (appendSink_testWriter Unit false false)
      (fullCountSink_testWriter Unit false false) [] xyz slash).2.2.2.2 (by decide)⟩

/-- C3, the byte count on success: on a sink whose writes each report the full length of
the data given and no error, `String` and `Bytes` return as `written` the sum of the
element lengths plus `len(sep) * (len(elems) - 1)`, and `0` for no element, which is the
byte length of the join; the count is an `int64`, so it is this number itself whenever
the join is a Go value (fewer than `2^63` bytes). -/
theorem count_on_success {σ E : Type} (w : Sink σ E) (hn : FullCountSink w) (st : σ)
    (elems : List (List UInt8)) (sep : List UInt8) :
    (String w st elems sep).2 = (I64.ofInt (totalLen elems sep), none) ∧
      (Bytes w st elems sep).2 = (I64.ofInt (totalLen elems sep), none) ∧
      totalLen elems sep = (join elems sep).length ∧
      (totalLen elems sep < 9223372036854775808 →
        (String w st elems sep).2.1.val = totalLen elems sep ∧
        (Bytes w st elems sep).2.1.val = totalLen elems sep) := by
  refine ⟨String_fullCount w hn st elems sep, Bytes_fullCount w hn st elems sep,
    (join_length elems sep).symm, ?_⟩
  intro hlt
  rw [String_fullCount w hn, Bytes_fullCount w hn]
  exact ⟨ofInt_val_of_lt _ hlt, ofInt_val_of_lt _ hlt⟩

/-- The byte count of `String` and `Bytes` on the test buffer at `["x", "y", "z"]` and
`"/"` is 5. -/
theorem count_on_success_witness :
    FullCountSink (testWriter Unit true true) ∧
      totalLen xyz slash = 5 ∧
      (String (testWriter Unit true true) [] xyz slash).2.1.val = 5 ∧
      (Bytes (testWriter Unit true true) [] xyz slash).2.1.val = 5 :=
  ⟨fullCountSink_testWriter Unit true true, by decide,
    ((count_on_success (testWriter Unit true true) (fullCountSink_testWriter Unit true true)
      [] xyz slash).2.2.2 (by decide)).1,
    ((count_on_success (testWriter Unit true true) (fullCountSink_testWriter Unit true true)
      [] xyz slash).2.2.2 (by decide)).2⟩

/-! ## Calls and results of a finished call -/

theorem String_run {σ E : Type} (w : Sink σ E) (st : σ) (elems : List GoString)
    (sep : GoString) :
    (String (record w) (st, []) elems sep).1.2
        = growCalls w elems sep
            ++ callsSeq (stringMk w) (stringWrite w) (preState w st elems sep)
              (pieces elems sep) ∧
      (String (record w) (st, []) elems sep).2
        = (writeSeq (stringWrite w) (preState w st elems sep) 0 (pieces elems sep)).2 := by
  rw [String_record, ← String_eq_writeSeq, ← stringCalls_eq]
  simp

theorem Bytes_run {σ E : Type} (w : Sink σ E) (st : σ) (elems : List ByteSlice)
    (sep : ByteSlice) :
    (Bytes (record w) (st, []) elems sep).1.2
        = growCalls w elems sep
            ++ callsSeq Call.write w.Write (preState w st elems sep) (pieces elems sep) ∧
      (Bytes (record w) (st, []) elems sep).2
        = (writeSeq w.Write (preState w st elems sep) 0 (pieces elems sep)).2 := by
  rw [Bytes_record, ← Bytes_eq_writeSeq, ← bytesCalls_eq]
  simp

theorem isRun_String {σ E : Type} (w : Sink σ E) (st : σ) (elems : List GoString)
    (sep : GoString) : IsRun (String (record w) (st, []) elems sep) :=
  ⟨σ, stringMk w, stringWrite w, preState w st elems sep, pieces elems sep,
    growCalls w elems sep, isWriteMk_stringMk w, writes_growCalls w elems sep,
    (String_run w st elems sep).1, (String_run w st elems sep).2⟩

theorem isRun_Bytes {σ E : Type} (w : Sink σ E) (st : σ) (elems : List ByteSlice)
    (sep : ByteSlice) : IsRun (Bytes (record w) (st, []) elems sep) :=
  ⟨σ, Call.write, w.Write, preState w st elems sep, pieces elems sep,
    growCalls w elems sep, isWriteMk_write, writes_growCalls w elems sep,
    (Bytes_run w st elems sep).1, (Bytes_run w st elems sep).2⟩

theorem isRun_of_or {σ E : Type} (w : Sink σ E) (st : σ) (elems : List (List UInt8))
    (sep : List UInt8) (r : (σ × List (Call E)) × I64 × Option E)
    (hr : r = String (record w) (st, []) elems sep ∨ r = Bytes (record w) (st, []) elems sep) :
    IsRun r := by
  rcases hr with hr | hr
  · rw [hr]; exact isRun_String w st elems sep
  · rw [hr]; exact isRun_Bytes w st elems sep

theorem isRun_writes {σ E : Type} {r : (σ × List (Call E)) × I64 × Option E} (h : IsRun r) :
    ∃ (τ : Type) (mk : List UInt8 → I64 → Option E → Call E) (wr : WriteFn τ E) (st : τ)
      (ps : List (List UInt8)) (glog : List (Call E)),
      IsWriteMk mk ∧ r.1.2 = glog ++ callsSeq mk wr st ps ∧
        writes r.1.2 = callsSeq mk wr st ps ∧ r.2 = (writeSeq wr st 0 ps).2 := by
  obtain ⟨τ, mk, wr, st, ps, glog, hmk, hg, hlog, hres⟩ := h
  refine ⟨τ, mk, wr, st, ps, glog, hmk, hlog, ?_, hres⟩
  rw [hlog, writes, List.filter_append]
  have h1 : List.filter Call.isWrite glog = [] := hg
  rw [h1, List.nil_append]
  exact writes_callsSeq hmk wr ps st

theorem isRun_count {σ E : Type} {r : (σ × List (Call E)) × I64 × Option E} (h : IsRun r) :
    r.2.1 = sum64 ((writes r.1.2).map Call.count) := by
  obtain ⟨τ, mk, wr, st, ps, glog, hmk, _, hw, hres⟩ := isRun_writes h
  rw [hw, hres, writeSeq_count hmk, I64.zero_add]

theorem isRun_err {σ E : Type} {r : (σ × List (Call E)) × I64 × Option E} (h : IsRun r) :
    r.2.2 = lastErr (writes r.1.2) := by
  obtain ⟨τ, mk, wr, st, ps, glog, hmk, _, hw, hres⟩ := isRun_writes h
  rw [hw, hres, writeSeq_err hmk]

theorem isRun_stop {σ E : Type} {r : (σ × List (Call E)) × I64 × Option E} (h : IsRun r)
    (k : Nat) (c : Call E) (hk : (writes r.1.2)[k]? = some c) (hc : c.err ≠ none) :
    (writes r.1.2).length = k + 1 ∧ r.1.2.getLast? = some c := by
  obtain ⟨τ, mk, wr, st, ps, glog, hmk, hlog, hw, _⟩ := isRun_writes h
  rw [hw] at hk ⊢
  have hlen := callsSeq_err_last hmk wr ps st k c hk hc
  refine ⟨hlen, ?_⟩
  have hne : callsSeq mk wr st ps ≠ [] := by
    intro h0
    rw [h0] at hlen
    simp at hlen
  rw [hlog, List.getLast?_append_of_ne_nil _ hne, List.getLast?_eq_getElem?, hlen]
  simpa using hk

/-! ## Errors -/

/-- C4, the first-error short circuit: in any call of `String` or `Bytes`, on any sink and
with any reported counts, when write call number `k + 1` (index `k` from zero) reports a
non-nil error, no earlier write reported one, this write is the last call made on the
sink (no further write is issued), the returned error is the error of this write, and
the returned count is the `int64` sum of the counts reported by the write calls up to
and including this one, which is their exact sum whenever that fits in an `int64`. -/
theorem first_error_short_circuit {σ E : Type} (w : Sink σ E) (st : σ)
    (elems : List (List UInt8)) (sep : List UInt8) (r : (σ × List (Call E)) × I64 × Option E)
    (hr : r = String (record w) (st, []) elems sep ∨ r = Bytes (record w) (st, []) elems sep)
    (k : Nat) (c : Call E) (hk : (writes r.1.2)[k]? = some c) (hc : c.err ≠ none) :
    (∀ j c1, j < k → (writes r.1.2)[j]? = some c1 → c1.err = none) ∧
      (writes r.1.2).length = k + 1 ∧
      r.1.2.getLast? = some c ∧
      r.2.2 = c.err ∧
      r.2.1 = sum64 (((writes r.1.2).take (k + 1)).map Call.count) ∧
      (-9223372036854775808 ≤ (((writes r.1.2).take (k + 1)).map (fun x => x.count.val)).sum →
        (((writes r.1.2).take (k + 1)).map (fun x => x.count.val)).sum < 9223372036854775808 →
        r.2.1.val = (((writes r.1.2).take (k + 1)).map (fun x => x.count.val)).sum) := by
  have hrun := isRun_of_or w st elems sep r hr
  obtain ⟨hlen, hlast⟩ := isRun_stop hrun k c hk hc
  have htake : (writes r.1.2).take (k + 1) = writes r.1.2 :=
    List.take_of_length_le (by omega)
  have hcount := isRun_count hrun
  refine ⟨?_, hlen, hlast, ?_, ?_, ?_⟩
  · intro j c1 hj hj1
    by_contra hne
    have := (isRun_stop hrun j c1 hj1 hne).1
    omega
  · rw [isRun_err hrun, lastErr, List.getLast?_eq_getElem?, hlen]
    simp [hk]
  · rw [htake]; exact hcount
  · intro h1 h2
    rw [htake] at h1 h2 ⊢
    rw [hcount, sum64_val, List.map_map]
    exact wrap64_of_range h1 h2

/-- The short circuit on a buffer that holds two bytes, at `["x", "y", "z"]` and `"/"`:
the third write (`"y"`) fails, nothing follows it, and the count is `1 + 1 + 0 = 2`. -/
theorem first_error_short_circuit_witness :
    (writes (String (record (limitedWriter 2 true false)) ([], []) xyz slash).1.2)[2]?
        = some (Call.write [121] 0 (some TestError.full)) ∧
      (writes (String (record (limitedWriter 2 true false)) ([], []) xyz slash).1.2).length
        = 2 + 1 ∧
      (String (record (limitedWriter 2 true false)) ([], []) xyz slash).2.2
        = some TestError.full ∧
      (String (record (limitedWriter 2 true false)) ([], []) xyz slash).2.1.val = 2 :=
  ⟨by decide,
    (first_error_short_circuit (limitedWriter 2 true false) [] xyz slash _ (Or.inl rfl) 2
      (Call.write [121] 0 (some TestError.full)) (by decide) (by decide)).2.1,
    (first_error_short_circuit (limitedWriter 2 true false) [] xyz slash _ (Or.inl rfl) 2
      (Call.write [121] 0 (some TestError.full)) (by decide) (by decide)).2.2.2.1,
    (first_error_short_circuit (limitedWriter 2 true false) [] xyz slash _ (Or.inl rfl) 2
      (Call.write [121] 0 (some TestError.full)) (by decide) (by decide)).2.2.2.2.2
      (by decide) (by decide)⟩

/-! ## No element, one element -/

theorem callsSeq_single {σ E : Type} (mk : List UInt8 → I64 → Option E → Call E)
    (wr : WriteFn σ E) (st : σ) (p : List UInt8) :
    callsSeq mk wr st [p] = [mk p (wr st p).2.1 (wr st p).2.2] := by
  simp only [callsSeq]
  rcases wr st p with ⟨st1, n, _ | err⟩ <;> rfl

/-- C5, the empty input: for every sink, every state of it and every separator,
`String(w, [], sep)` and `Bytes(w, [], sep)` return `(0, nil)`, leave the sink as it was
and make no call on it: the log of the recording sink is unchanged. -/
theorem empty_input {σ E : Type} (w : Sink σ E) (st : σ) (log : List (Call E))
    (sep : List UInt8) :
    String w st [] sep = (st, 0, none) ∧
      Bytes w st [] sep = (st, 0, none) ∧
      String (record w) (st, log) [] sep = ((st, log), 0, none) ∧
      Bytes (record w) (st, log) [] sep = ((st, log), 0, none) :=
  ⟨rfl, rfl, rfl, rfl⟩

/-- C6, the single element: for every sink, `String(w, [e], sep)` makes exactly one call,
`WriteString(e)` when the sink has the method and `Write([]byte(e))` otherwise, and
`Bytes(w, [e], sep)` makes exactly the call `Write(e)`; each returns the count and the
error this call reports and leaves the sink as this call leaves it; `Grow` is not
called; and the result and the calls are the same for every separator. -/
theorem single_element {σ E : Type} (w : Sink σ E) (st : σ) (e : List UInt8)
    (sep : List UInt8) :
    String (record w) (st, []) [e] sep
        = (match w.WriteString with
          | some sw =>
            (((sw st e).1, [Call.writeString e (sw st e).2.1 (sw st e).2.2]), (sw st e).2)
          | none =>
            (((w.Write st (toBytes e)).1,
              [Call.write (toBytes e) (w.Write st (toBytes e)).2.1 (w.Write st (toBytes e)).2.2]),
              (w.Write st (toBytes e)).2)) ∧
      Bytes (record w) (st, []) [e] sep
        = (((w.Write st e).1, [Call.write e (w.Write st e).2.1 (w.Write st e).2.2]),
            (w.Write st e).2) ∧
      grows (String (record w) (st, []) [e] sep).1.2 = [] ∧
      grows (Bytes (record w) (st, []) [e] sep).1.2 = [] ∧
      (∀ sep2, String (record w) (st, []) [e] sep2 = String (record w) (st, []) [e] sep) ∧
      (∀ sep2, Bytes (record w) (st, []) [e] sep2 = Bytes (record w) (st, []) [e] sep) ∧
      (∀ sep2, String w st [e] sep2 = String w st [e] sep) ∧
      (∀ sep2, Bytes w st [e] sep2 = Bytes w st [e] sep) := by
  have hS : String (record w) (st, []) [e] sep
        = (match w.WriteString with
          | some sw =>
            (((sw st e).1, [Call.writeString e (sw st e).2.1 (sw st e).2.2]), (sw st e).2)
          | none =>
            (((w.Write st (toBytes e)).1,
              [Call.write (toBytes e) (w.Write st (toBytes e)).2.1 (w.Write st (toBytes e)).2.2]),
              (w.Write st (toBytes e)).2)) := by
    rw [String_record]
    simp only [String, stringCalls, ioWriteString, cvt, callsSeq_single, toBytes,
      List.nil_append]
    cases w.WriteString <;> rfl
  have hB : Bytes (record w) (st, []) [e] sep
        = (((w.Write st e).1, [Call.write e (w.Write st e).2.1 (w.Write st e).2.2]),
            (w.Write st e).2) := by
    rw [Bytes_record]
    simp only [Bytes, bytesCalls, cvt, callsSeq_single, List.nil_append]
  refine ⟨hS, hB, ?_, ?_, fun _ => rfl, fun _ => rfl, fun _ => rfl, fun _ => rfl⟩
  · rw [hS]
    cases w.WriteString <;> rfl
  · rw [hB]
    rfl

/-- C10, error transparency: in any call of `String` or `Bytes`, on any sink, the returned
error is the error reported by the last write call issued, and nil when no write was
issued: it is non-nil exactly when that last write reported a non-nil error, it is then
that very error, and it is nil whenever every write issued reported none. -/
theorem error_transparency {σ E : Type} (w : Sink σ E) (st : σ)
    (elems : List (List UInt8)) (sep : List UInt8) (r : (σ × List (Call E)) × I64 × Option E)
    (hr : r = String (record w) (st, []) elems sep ∨ r = Bytes (record w) (st, []) elems sep) :
    r.2.2 = lastErr (writes r.1.2) ∧
      (r.2.2 ≠ none ↔ ∃ c, (writes r.1.2).getLast? = some c ∧ c.err ≠ none) ∧
      (∀ c, (writes r.1.2).getLast? = some c → c.err ≠ none → r.2.2 = c.err) ∧
      ((∀ c ∈ writes r.1.2, c.err = none) → r.2.2 = none) := by
  have herr := isRun_err (isRun_of_or w st elems sep r hr)
  refine ⟨herr, ?_, ?_, ?_⟩
  · rw [herr, lastErr]
    cases h : (writes r.1.2).getLast? with
    | none => simp
    | some c => simp
  · intro c h _
    rw [herr, lastErr, h]
  · intro h
    rw [herr, lastErr]
    cases h1 : (writes r.1.2).getLast? with
    | none => rfl
    | some c => exact h c (List.mem_of_getLast?_eq_some h1)

/-- Error transparency on a buffer that holds two bytes, at `["x", "y", "z"]` and `"/"`:
the last write issued by `Bytes` is the failing `Write("y")`, and its error is returned. -/
theorem error_transparency_witness :
    (writes (Bytes (record (limitedWriter 2 false false)) ([], []) xyz slash).1.2).getLast?
        = some (Call.write [121] 0 (some TestError.full)) ∧
      (Bytes (record (limitedWriter 2 false false)) ([], []) xyz slash).2.2
        = (Call.write [121] 0 (some TestError.full)).err :=
  ⟨by decide,
    (error_transparency (limitedWriter 2 false false) [] xyz slash _ (Or.inr rfl)).2.2.1
      (Call.write [121] 0 (some TestError.full)) (by decide) (by decide)⟩

/-! ## The reservation hint -/

theorem foldl_len (elems : List (List UInt8)) (init : I64) :
    elems.foldl (fun n e => n + len e) init
      = init + I64.ofInt ((elems.map List.length).sum : Nat) := by
  induction elems generalizing init with
  | nil => simp [I64.add_ofInt, I64.ofInt_self]
  | cons e rest ih =>
    simp only [List.foldl_cons, List.map_cons, List.sum_cons]
    rw [ih, I64.add_assoc, len, I64.ofInt_add]
    simp

theorem len_mul_pred (sep : List UInt8) (elems : List (List UInt8)) (h : 1 ≤ elems.length) :
    len sep * (len elems - 1) = I64.ofInt ((sep.length * (elems.length - 1) : Nat) : Int) := by
  apply I64.ext
  rw [I64.mul_val, I64.sub_val, I64.one_val, len, len, I64.ofInt_val, I64.ofInt_val,
    I64.ofInt_val]
  apply wrap64_congr
  have h1 : ((sep.length * (elems.length - 1) : Nat) : Int)
      = (sep.length : Int) * ((elems.length : Int) - 1) := by
    push_cast [Nat.cast_sub h]
    rfl
  rw [h1]
  exact (wrap64_modEq _).mul ((wrap64_modEq _).trans ((wrap64_modEq _).sub_right 1))

theorem growHint_eq (elems : List (List UInt8)) (sep : List UInt8) (h : 1 ≤ elems.length) :
    growHint elems sep
      = I64.ofInt ((sep.length * (elems.length - 1) + (elems.map List.length).sum : Nat) : Int) := by
  rw [growHint, foldl_len, len_mul_pred sep elems h, I64.ofInt_add]
  simp

theorem totalLen_eq (elems : List (List UInt8)) (sep : List UInt8) (h : 1 ≤ elems.length) :
    totalLen elems sep = sep.length * (elems.length - 1) + (elems.map List.length).sum := by
  unfold totalLen
  have : elems ≠ [] := by
    intro h0
    rw [h0] at h
    simp at h
  rw [if_neg this, Nat.add_comm]

theorem grows_growCalls {σ E : Type} (w : Sink σ E) (g : σ → I64 → σ) (hg : w.Grow = some g)
    (elems : List (List UInt8)) (sep : List UInt8) (h : 2 ≤ elems.length) :
    grows (growCalls w elems sep : List (Call E)) = [growHint elems sep] := by
  match elems, h with
  | _ :: _ :: _, _ => simp [growCalls, hg, grows]

/-- C8, the reservation hint: for two elements or more and a sink that has `Grow`,
`String` and `Bytes` call `Grow` with exactly
`len(sep) * (len(elems) - 1) + len(elems[0]) + ... + len(elems[n-1])` in `int` arithmetic,
which is `len` of the joined output, and is this number of bytes itself whenever the
join is a Go value (fewer than `2^63` bytes). -/
theorem reservation_hint {σ E : Type} (w : Sink σ E) (g : σ → I64 → σ) (hg : w.Grow = some g)
    (st : σ) (elems : List (List UInt8)) (sep : List UInt8) (hlen : 2 ≤ elems.length) :
    grows (String (record w) (st, []) elems sep).1.2
        = [I64.ofInt ((sep.length * (elems.length - 1) + (elems.map List.length).sum : Nat) : Int)] ∧
      grows (Bytes (record w) (st, []) elems sep).1.2
        = [I64.ofInt ((sep.length * (elems.length - 1) + (elems.map List.length).sum : Nat) : Int)] ∧
      I64.ofInt ((sep.length * (elems.length - 1) + (elems.map List.length).sum : Nat) : Int)
        = len (join elems sep) ∧
      sep.length * (elems.length - 1) + (elems.map List.length).sum = (join elems sep).length ∧
      ((join elems sep).length < 9223372036854775808 →
        (I64.ofInt ((sep.length * (elems.length - 1) + (elems.map List.length).sum : Nat) : Int)).val
          = ((sep.length * (elems.length - 1) + (elems.map List.length).sum : Nat) : Int)) := by
  have h1 : 1 ≤ elems.length := by omega
  have hj : sep.length * (elems.length - 1) + (elems.map List.length).sum
      = (join elems sep).length := by
    rw [join_length, totalLen_eq elems sep h1]
  refine ⟨?_, ?_, ?_, hj, ?_⟩
  · rw [(String_run w st elems sep).1, grows, List.filterMap_append]
    have h2 := grows_growCalls w g hg elems sep hlen
    have h3 := grows_callsSeq (isWriteMk_stringMk w) (stringWrite w) (pieces elems sep)
      (preState w st elems sep)
    unfold grows at h2 h3
    rw [h2, h3, growHint_eq elems sep h1]
    rfl
  · rw [(Bytes_run w st elems sep).1, grows, List.filterMap_append]
    have h2 := grows_growCalls w g hg elems sep hlen
    have h3 := grows_callsSeq (isWriteMk_write (E := E)) w.Write (pieces elems sep)
      (preState w st elems sep)
    unfold grows at h2 h3
    rw [h2, h3, growHint_eq elems sep h1]
    rfl
  · rw [hj, len]
  · intro hlt
    rw [hj]
    exact ofInt_val_of_lt _ hlt

/-- The reservation hint on the test buffer at `["x", "y", "z"]` and `"/"`: `Grow(5)`. -/
theorem reservation_hint_witness :
    (testWriter Unit true true).Grow = some bufferGrow ∧
      2 ≤ xyz.length ∧
      grows (String (record (testWriter Unit true true)) ([], []) xyz slash).1.2 = [5] ∧
      grows (Bytes (record (testWriter Unit true true)) ([], []) xyz slash).1.2 = [5] :=
  ⟨rfl, by decide,
    (reservation_hint (testWriter Unit true true) bufferGrow rfl [] xyz slash (by decide)).1,
    (reservation_hint (testWriter Unit true true) bufferGrow rfl [] xyz slash (by decide)).2.1⟩

theorem noErrorSink_stringWrite {σ E : Type} {w : Sink σ E} (h : NoErrorSink w) (st : σ)
    (p : List UInt8) : (stringWrite w st p).2.2 = none := by
  unfold stringWrite
  cases hs : w.WriteString with
  | none => exact h.write st p
  | some sw => exact h.writeString sw hs st p

theorem noErrorSink_testWriter (E : Type) (hasGrow hasWriteString : Bool) :
    NoErrorSink (testWriter E hasGrow hasWriteString) := by
  constructor
  · intro st p; rfl
  · intro sw h st s
    cases hasWriteString
    · simp [testWriter, sinkOf] at h
    · simp only [testWriter, sinkOf, if_true, Option.some.injEq] at h
      subst h
      rfl

theorem interleave_even (sep : List UInt8) (rest : List (List UInt8)) (i : Nat)
    (h : i < rest.length) : (interleave sep rest)[2 * i]? = some sep := by
  induction rest generalizing i with
  | nil => simp at h
  | cons e rest ih =>
    cases i with
    | zero => simp [interleave]
    | succ i =>
      have h2 : 2 * (i + 1) = 2 * i + 1 + 1 := by omega
      simp only [interleave, h2, List.getElem?_cons_succ]
      exact ih i (by simpa using h)

theorem interleave_odd (sep : List UInt8) (rest : List (List UInt8)) (i : Nat) :
    (interleave sep rest)[2 * i + 1]? = rest[i]? := by
  induction rest generalizing i with
  | nil => simp [interleave]
  | cons e rest ih =>
    cases i with
    | zero => simp [interleave]
    | succ i =>
      have h2 : 2 * (i + 1) + 1 = 2 * i + 1 + 1 + 1 := by omega
      simp only [interleave, h2, List.getElem?_cons_succ]
      exact ih i

theorem pieces_even (elems : List (List UInt8)) (sep : List UInt8) (i : Nat) :
    (pieces elems sep)[2 * i]? = elems[i]? := by
  cases elems with
  | nil => simp [pieces]
  | cons e rest =>
    cases i with
    | zero => simp [pieces]
    | succ i =>
      have h2 : 2 * (i + 1) = 2 * i + 1 + 1 := by omega
      simp only [pieces, h2, List.getElem?_cons_succ]
      exact interleave_odd sep rest i

theorem pieces_odd (elems : List (List UInt8)) (sep : List UInt8) (i : Nat)
    (h : i + 1 < elems.length) : (pieces elems sep)[2 * i + 1]? = some sep := by
  cases elems with
  | nil => simp at h
  | cons e rest =>
    simp only [pieces, List.getElem?_cons_succ]
    exact interleave_even sep rest i (by simpa using h)

/-- C9, the call sequence and the call count: on a sink none of whose writes reports an
error, the arguments of the write calls `String` and `Bytes` issue are, in call order,
`[elems[0], sep, elems[1], sep, ..., sep, elems[n-1]]` (the empty separator included):
call `2 * i` (from zero) has argument `elems[i]`, call `2 * i + 1` has argument `sep`, and
there are `2 * n - 1` write calls for `n >= 2`, one for `n = 1` and none for `n = 0`. -/
theorem call_sequence {σ E : Type} (w : Sink σ E) (hne : NoErrorSink w) (st : σ)
    (elems : List (List UInt8)) (sep : List UInt8) (r : (σ × List (Call E)) × I64 × Option E)
    (hr : r = String (record w) (st, []) elems sep ∨ r = Bytes (record w) (st, []) elems sep) :
    (writes r.1.2).map Call.arg = pieces elems sep ∧
      (∀ i, ((writes r.1.2).map Call.arg)[2 * i]? = elems[i]?) ∧
      (∀ i, i + 1 < elems.length → ((writes r.1.2).map Call.arg)[2 * i + 1]? = some sep) ∧
      (2 ≤ elems.length → (writes r.1.2).length = 2 * elems.length - 1) ∧
      (elems.length = 1 → (writes r.1.2).length = 1) ∧
      (elems.length = 0 → (writes r.1.2).length = 0) := by
  have hargs : (writes r.1.2).map Call.arg = pieces elems sep := by
    rcases hr with hr | hr
    · rw [hr, (String_run w st elems sep).1, writes, List.filter_append]
      have h1 : List.filter Call.isWrite (growCalls w elems sep : List (Call E)) = [] :=
        writes_growCalls w elems sep
      have h2 := writes_callsSeq (isWriteMk_stringMk w) (stringWrite w) (pieces elems sep)
        (preState w st elems sep)
      unfold writes at h2
      rw [h1, h2, List.nil_append]
      exact callsSeq_args (isWriteMk_stringMk w) (stringWrite w) (noErrorSink_stringWrite hne)
        (pieces elems sep) (preState w st elems sep)
    · rw [hr, (Bytes_run w st elems sep).1, writes, List.filter_append]
      have h1 : List.filter Call.isWrite (growCalls w elems sep : List (Call E)) = [] :=
        writes_growCalls w elems sep
      have h2 := writes_callsSeq (isWriteMk_write (E := E)) w.Write (pieces elems sep)
        (preState w st elems sep)
      unfold writes at h2
      rw [h1, h2, List.nil_append]
      exact callsSeq_args isWriteMk_write w.Write hne.write (pieces elems sep)
        (preState w st elems sep)
  have hlen : (writes r.1.2).length = 2 * elems.length - 1 := by
    rw [← List.length_map (writes r.1.2) Call.arg, hargs, pieces_length]
  refine ⟨hargs, ?_, ?_, ?_, ?_, ?_⟩
  · intro i; rw [hargs]; exact pieces_even elems sep i
  · intro i hi; rw [hargs]; exact pieces_odd elems sep i hi
  · intro _; exact hlen
  · intro h; rw [hlen, h]
  · intro h; rw [hlen, h]

/-- The call sequence of `String` on the test buffer at `["x", "y", "z"]` and `"/"`: the
five writes `"x"`, `"/"`, `"y"`, `"/"`, `"z"`. -/
theorem call_sequence_witness :
    NoErrorSink (testWriter Unit true true) ∧
      2 ≤ xyz.length ∧
      (writes (String (record (testWriter Unit true true)) ([], []) xyz slash).1.2).map Call.arg
        = [[120], [47], [121], [47], [122]] ∧
      (writes (String (record (testWriter Unit true true)) ([], []) xyz slash).1.2).length
        = 2 * 3 - 1 :=
  ⟨noErrorSink_testWriter Unit true true, by decide,
    (call_sequence (testWriter Unit true true) (noErrorSink_testWriter Unit true true) [] xyz
      slash _ (Or.inl rfl)).1,
    (call_sequence (testWriter Unit true true) (noErrorSink_testWriter Unit true true) [] xyz
      slash _ (Or.inl rfl)).2.2.2.1 (by decide)⟩

/-! ## Independence of the optional methods -/

theorem writeSeq_congr {σ E : Type} (wr : WriteFn σ E) (content : σ → List UInt8)
    (hwr : ∀ st1 st2 p, content st1 = content st2 →
      content (wr st1 p).1 = content (wr st2 p).1 ∧ (wr st1 p).2 = (wr st2 p).2)
    (ps : List (List UInt8)) (st1 st2 : σ) (acc : I64) (h : content st1 = content st2) :
    content (writeSeq wr st1 acc ps).1 = content (writeSeq wr st2 acc ps).1 ∧
      (writeSeq wr st1 acc ps).2 = (writeSeq wr st2 acc ps).2 := by
  induction ps generalizing st1 st2 acc with
  | nil => exact ⟨h, rfl⟩
  | cons p ps ih =>
    simp only [writeSeq]
    have h0 := hwr st1 st2 p h
    rcases h1 : wr st1 p with ⟨s1, n1, e1⟩
    rcases h2 : wr st2 p with ⟨s2, n2, e2⟩
    rw [h1, h2] at h0
    simp only [Prod.mk.injEq] at h0
    obtain ⟨hc, hn, he⟩ := h0
    subst hn he
    cases e1 with
    | none => exact ih s1 s2 (acc + n1) hc
    | some err => exact ⟨hc, rfl⟩

theorem sinkOf_stringWrite {σ E : Type} (wr : WriteFn σ E) (g : σ → I64 → σ)
    (hasGrow hasWriteString : Bool) :
    stringWrite (sinkOf wr g hasGrow hasWriteString) = wr := by
  cases hasWriteString <;> rfl

theorem sinkOf_preState {σ E : Type} (wr : WriteFn σ E) (g : σ → I64 → σ)
    (content : σ → List UInt8) (hg : ∀ st n, content (g st n) = content st)
    (hasGrow hasWriteString : Bool) (st : σ) (elems : List (List UInt8)) (sep : List UInt8) :
    content (preState (sinkOf wr g hasGrow hasWriteString) st elems sep) = content st := by
  unfold preState
  split
  · cases hasGrow
    · rfl
    · exact hg st _
  · rfl

/-- C7, capability independence: over one underlying buffer whose write behaviour is a
function of the bytes it holds, with `WriteString(s)` behaving as `Write([]byte(s))` and
`Grow` leaving the bytes alone, `String` returns the same count and error and leaves the
same bytes on all four sink shapes (`Grow` and `WriteString`, `WriteString` only, `Grow`
only, neither), and `Bytes` on the byte-converted input gives that same result on each
of them. -/
theorem capability_independence {σ E : Type} (wr : WriteFn σ E) (g : σ → I64 → σ)
    (content : σ → List UInt8)
    (hwr : ∀ st1 st2 p, content st1 = content st2 →
      content (wr st1 p).1 = content (wr st2 p).1 ∧ (wr st1 p).2 = (wr st2 p).2)
    (hg : ∀ st n, content (g st n) = content st)
    (st : σ) (elems : List GoString) (sep : GoString) (hasGrow hasWriteString : Bool) :
    content (String (sinkOf wr g hasGrow hasWriteString) st elems sep).1
        = content (String (sinkOf wr g false false) st elems sep).1 ∧
      (String (sinkOf wr g hasGrow hasWriteString) st elems sep).2
        = (String (sinkOf wr g false false) st elems sep).2 ∧
      content (Bytes (sinkOf wr g hasGrow hasWriteString) st (cvtElems elems) (toBytes sep)).1
        = content (String (sinkOf wr g false false) st elems sep).1 ∧
      (Bytes (sinkOf wr g hasGrow hasWriteString) st (cvtElems elems) (toBytes sep)).2
        = (String (sinkOf wr g false false) st elems sep).2 := by
  have hB : Bytes (sinkOf wr g hasGrow hasWriteString) st (cvtElems elems) (toBytes sep)
      = writeSeq wr (preState (sinkOf wr g hasGrow hasWriteString) st elems sep) 0
          (pieces elems sep) := by
    rw [Bytes_eq_writeSeq, cvtElems, map_toBytes, toBytes]
    rfl
  rw [hB, String_eq_writeSeq, String_eq_writeSeq, sinkOf_stringWrite, sinkOf_stringWrite]
  have h1 := writeSeq_congr wr content hwr (pieces elems sep)
    (preState (sinkOf wr g hasGrow hasWriteString) st elems sep)
    (preState (sinkOf wr g false false) st elems sep) 0
    (by rw [sinkOf_preState wr g content hg, sinkOf_preState wr g content hg])
  exact ⟨h1.1, h1.2, h1.1, h1.2⟩

/-- Capability independence on the four writers of the test, at `["x", "y", "z"]` and
`"/"`: `"x/y/z"` and 5 on each of them, for `String` and for `Bytes`. -/
theorem capability_independence_witness :
    (∀ st1 st2 p, id st1 = id st2 →
        id (bufferWrite (E := Unit) st1 p).1 = id (bufferWrite (E := Unit) st2 p).1 ∧
          (bufferWrite (E := Unit) st1 p).2 = (bufferWrite (E := Unit) st2 p).2) ∧
      (∀ st n, id (bufferGrow st n) = id st) ∧
      (∀ w ∈ writers Unit,
        String w [] xyz slash = ([120, 47, 121, 47, 122], 5, none) ∧
          Bytes w [] (cvtElems xyz) (toBytes slash) = ([120, 47, 121, 47, 122], 5, none)) ∧
      (String (testWriter Unit true true) [] xyz slash).2
        = (String (testWriter Unit false false) [] xyz slash).2 ∧
      (Bytes (testWriter Unit true false) [] (cvtElems xyz) (toBytes slash)).2
        = (String (testWriter Unit false false) [] xyz slash).2 :=
  ⟨fun _ _ _ h => by cases h; exact ⟨rfl, rfl⟩, fun _ _ => rfl, by decide,
    (capability_independence bufferWrite bufferGrow id
      (fun _ _ _ h => by cases h; exact ⟨rfl, rfl⟩) (fun _ _ => rfl) [] xyz slash true true).2.1,
    (capability_independence bufferWrite bufferGrow id
      (fun _ _ _ h => by cases h; exact ⟨rfl, rfl⟩) (fun _ _ => rfl) [] xyz slash
      true false).2.2.2⟩

/-! ## Partial counts -/

theorem wrap64_le_self {x : Int} (h : 0 ≤ x) : wrap64 x ≤ x := by
  unfold wrap64; omega

theorem writeSeq_bounded {σ E : Type} (wr : WriteFn σ E)
    (hwr : ∀ st p, 0 ≤ (wr st p).2.1.val ∧ (wr st p).2.1.val ≤ p.length)
    (ps : List (List UInt8)) (st : σ) (acc : I64) :
    ∃ S : Int, 0 ≤ S ∧ S ≤ ((ps.map List.length).sum : Nat) ∧
      (writeSeq wr st acc ps).2.1 = acc + I64.ofInt S := by
  induction ps generalizing st acc with
  | nil => exact ⟨0, le_refl 0, by simp, by simp [writeSeq, I64.add_ofInt, I64.ofInt_self]⟩
  | cons p ps ih =>
    simp only [writeSeq]
    have h := hwr st p
    rcases h1 : wr st p with ⟨st1, n, _ | err⟩
    · rw [h1] at h
      simp only [] at h ⊢
      obtain ⟨S, hS0, hS1, hS⟩ := ih st1 (acc + n)
      refine ⟨n.val + S, by omega, ?_, ?_⟩
      · simp only [List.map_cons, List.sum_cons, Nat.cast_add]
        omega
      · rw [hS, I64.add_assoc, I64.add_ofInt]
    · rw [h1] at h
      simp only [] at h ⊢
      refine ⟨n.val, h.1, ?_, ?_⟩
      · simp only [List.map_cons, List.sum_cons, Nat.cast_add]
        omega
      · rw [I64.ofInt_self]

theorem boundedCountSink_stringWrite {σ E : Type} {w : Sink σ E} (h : BoundedCountSink w)
    (st : σ) (p : List UInt8) :
    0 ≤ (stringWrite w st p).2.1.val ∧ (stringWrite w st p).2.1.val ≤ p.length := by
  unfold stringWrite
  cases hs : w.WriteString with
  | none => exact h.write st p
  | some sw => exact h.writeString sw hs st p

theorem limitedWrite_bounded (cap : Nat) (hcap : cap < 9223372036854775808)
    (st : List UInt8) (p : List UInt8) :
    0 ≤ (limitedWrite cap st p).2.1.val ∧ (limitedWrite cap st p).2.1.val ≤ p.length := by
  simp only [limitedWrite, I64.ofInt_val]
  have h1 : min p.length (cap - st.length) ≤ p.length := Nat.min_le_left _ _
  have h2 : min p.length (cap - st.length) ≤ cap := by
    have := Nat.min_le_right p.length (cap - st.length)
    omega
  rw [wrap64_of_range (by omega) (by omega)]
  omega

theorem boundedCountSink_limitedWriter (cap : Nat) (hcap : cap < 9223372036854775808)
    (hasGrow hasWriteString : Bool) :
    BoundedCountSink (limitedWriter cap hasGrow hasWriteString) := by
  constructor
  · intro st p; exact limitedWrite_bounded cap hcap st p
  · intro sw h st s
    cases hasWriteString
    · simp [limitedWriter, sinkOf] at h
    · simp only [limitedWriter, sinkOf, if_true, Option.some.injEq] at h
      subst h
      exact limitedWrite_bounded cap hcap st s

/-- C11, the bound on the partial count: on a sink each of whose writes reports a count
between `0` and the length of the data it was given, the count `String` and `Bytes`
return, on success and on failure alike, never exceeds the byte length of the intended
output, `len(sep) * (len(elems) - 1)` plus the sum of the element lengths, and `0` for no
element. -/
theorem partial_count_bound {σ E : Type} (w : Sink σ E) (hb : BoundedCountSink w) (st : σ)
    (elems : List (List UInt8)) (sep : List UInt8) :
    (String w st elems sep).2.1.val ≤ totalLen elems sep ∧
      (Bytes w st elems sep).2.1.val ≤ totalLen elems sep ∧
      totalLen elems sep
        = (if elems = [] then 0
            else sep.length * (elems.length - 1) + (elems.map List.length).sum) := by
  refine ⟨?_, ?_, ?_⟩
  · obtain ⟨S, hS0, hS1, hS⟩ := writeSeq_bounded (stringWrite w)
      (boundedCountSink_stringWrite hb) (pieces elems sep) (preState w st elems sep) 0
    rw [String_eq_writeSeq, hS, I64.zero_add, I64.ofInt_val]
    rw [pieces_sum] at hS1
    exact le_trans (wrap64_le_self hS0) hS1
  · obtain ⟨S, hS0, hS1, hS⟩ := writeSeq_bounded w.Write hb.write (pieces elems sep)
      (preState w st elems sep) 0
    rw [Bytes_eq_writeSeq, hS, I64.zero_add, I64.ofInt_val]
    rw [pieces_sum] at hS1
    exact le_trans (wrap64_le_self hS0) hS1
  · unfold totalLen
    split
    · rfl
    · exact Nat.add_comm _ _

/-- The bound on a buffer that holds two bytes, at `["x", "y", "z"]` and `"/"`: the count
of the failed call is 2, the intended output has 5 bytes. -/
theorem partial_count_bound_witness :
    BoundedCountSink (limitedWriter 2 true true) ∧
      (String (limitedWriter 2 true true) [] xyz slash).2 = (2, some TestError.full) ∧
      totalLen xyz slash = 5 ∧
      (String (limitedWriter 2 true true) [] xyz slash).2.1.val ≤ totalLen xyz slash :=
  ⟨boundedCountSink_limitedWriter 2 (by decide) true true, by decide, by decide,
    (partial_count_bound (limitedWriter 2 true true)
      (boundedCountSink_limitedWriter 2 (by decide) true true) [] xyz slash).1⟩

/-! ## The calls of a finished call, by position -/

theorem callsSeq_continue {σ E : Type} {mk : List UInt8 → I64 → Option E → Call E}
    (hmk : IsWriteMk mk) (wr : WriteFn σ E) (ps : List (List UInt8)) (st : σ)
    (k : Nat) (c : Call E) (hk : (callsSeq mk wr st ps)[k]? = some c) (hc : c.err = none)
    (hlt : k + 1 < ps.length) : k + 1 < (callsSeq mk wr st ps).length := by
  induction ps generalizing st k with
  | nil => simp at hlt
  | cons p ps ih =>
    simp only [callsSeq] at hk ⊢
    rcases h1 : wr st p with ⟨st1, n, _ | err⟩
    · rw [h1] at hk
      simp only [] at hk ⊢
      cases k with
      | zero =>
        cases ps with
        | nil => simp at hlt
        | cons q qs =>
          simp only [callsSeq]
          rcases wr st1 q with ⟨st2, m, _ | err2⟩ <;> simp
      | succ k =>
        simp only [List.getElem?_cons_succ] at hk
        have := ih st1 k hk (by simpa using hlt)
        simpa using this
    · rw [h1] at hk
      simp only [] at hk
      cases k with
      | zero =>
        simp only [List.getElem?_cons_zero, Option.some.injEq] at hk
        rw [← hk, (hmk p n (some err)).2.2.2] at hc
        simp at hc
      | succ k => simp at hk

theorem callsSeq_args_take {σ E : Type} {mk : List UInt8 → I64 → Option E → Call E}
    (hmk : IsWriteMk mk) (wr : WriteFn σ E) (ps : List (List UInt8)) (st : σ) :
    (callsSeq mk wr st ps).map Call.arg = ps.take (callsSeq mk wr st ps).length := by
  induction ps generalizing st with
  | nil => rfl
  | cons p ps ih =>
    simp only [callsSeq]
    rcases h1 : wr st p with ⟨st1, n, _ | err⟩
    · simp only [List.map_cons, List.length_cons, List.take_succ_cons, (hmk p n none).2.1]
      rw [ih st1]
    · simp [(hmk p n (some err)).2.1]

theorem callsSeq_args_of_no_err {σ E : Type} {mk : List UInt8 → I64 → Option E → Call E}
    (hmk : IsWriteMk mk) (wr : WriteFn σ E) (ps : List (List UInt8)) (st : σ)
    (h : ∀ c ∈ callsSeq mk wr st ps, c.err = none) :
    (callsSeq mk wr st ps).map Call.arg = ps := by
  induction ps generalizing st with
  | nil => rfl
  | cons p ps ih =>
    simp only [callsSeq] at h ⊢
    rcases h1 : wr st p with ⟨st1, n, _ | err⟩
    · rw [h1] at h
      simp only [] at h ⊢
      simp only [List.map_cons, (hmk p n none).2.1]
      rw [ih st1 (fun c hc => h c (List.mem_cons_of_mem _ hc))]
    · rw [h1] at h
      simp only [] at h
      have := h (mk p n (some err)) (List.mem_singleton.mpr rfl)
      rw [(hmk p n (some err)).2.2.2] at this
      simp at this

theorem callsSeq_mem {σ E : Type} (mk : List UInt8 → I64 → Option E → Call E)
    (wr : WriteFn σ E) (ps : List (List UInt8)) (st : σ) (c : Call E)
    (hc : c ∈ callsSeq mk wr st ps) : ∃ p n e, c = mk p n e := by
  induction ps generalizing st with
  | nil => simp [callsSeq] at hc
  | cons p ps ih =>
    simp only [callsSeq] at hc
    rcases h1 : wr st p with ⟨st1, n, _ | err⟩
    · rw [h1] at hc
      simp only [List.mem_cons] at hc
      rcases hc with hc | hc
      · exact ⟨p, n, none, hc⟩
      · exact ih st1 hc
    · rw [h1] at hc
      simp only [List.mem_singleton] at hc
      exact ⟨p, n, some err, hc⟩

theorem callsSeq_length_pos {σ E : Type} (mk : List UInt8 → I64 → Option E → Call E)
    (wr : WriteFn σ E) (p : List UInt8) (ps : List (List UInt8)) (st : σ) :
    1 ≤ (callsSeq mk wr st (p :: ps)).length := by
  simp only [callsSeq]
  rcases wr st p with ⟨st1, n, _ | err⟩ <;> simp

theorem run_pieces {σ E : Type} (w : Sink σ E) (st : σ) (elems : List (List UInt8))
    (sep : List UInt8) (r : (σ × List (Call E)) × I64 × Option E)
    (hr : r = String (record w) (st, []) elems sep ∨ r = Bytes (record w) (st, []) elems sep) :
    ∃ (mk : List UInt8 → I64 → Option E → Call E) (wr : WriteFn σ E),
      IsWriteMk mk ∧
        r.1.2 = growCalls w elems sep
          ++ callsSeq mk wr (preState w st elems sep) (pieces elems sep) ∧
        writes r.1.2 = callsSeq mk wr (preState w st elems sep) (pieces elems sep) ∧
        grows r.1.2 = grows (growCalls w elems sep : List (Call E)) ∧
        r.2 = (writeSeq wr (preState w st elems sep) 0 (pieces elems sep)).2 := by
  have key : ∀ (mk : List UInt8 → I64 → Option E → Call E) (wr : WriteFn σ E),
      IsWriteMk mk →
      r.1.2 = growCalls w elems sep
          ++ callsSeq mk wr (preState w st elems sep) (pieces elems sep) →
      writes r.1.2 = callsSeq mk wr (preState w st elems sep) (pieces elems sep) ∧
        grows r.1.2 = grows (growCalls w elems sep : List (Call E)) := by
    intro mk wr hmk hlog
    constructor
    · rw [hlog, writes, List.filter_append]
      have h1 : List.filter Call.isWrite (growCalls w elems sep : List (Call E)) = [] :=
        writes_growCalls w elems sep
      have h2 := writes_callsSeq hmk wr (pieces elems sep) (preState w st elems sep)
      unfold writes at h2
      rw [h1, h2, List.nil_append]
    · rw [hlog]
      have h3 := grows_callsSeq hmk wr (pieces elems sep) (preState w st elems sep)
      unfold grows at h3 ⊢
      rw [List.filterMap_append, h3, List.append_nil]
  rcases hr with hr | hr
  · have h1 := String_run w st elems sep
    rw [← hr] at h1
    exact ⟨stringMk w, stringWrite w, isWriteMk_stringMk w, h1.1,
      (key _ _ (isWriteMk_stringMk w) h1.1).1, (key _ _ (isWriteMk_stringMk w) h1.1).2, h1.2⟩
  · have h1 := Bytes_run w st elems sep
    rw [← hr] at h1
    exact ⟨Call.write, w.Write, isWriteMk_write, h1.1,
      (key _ _ isWriteMk_write h1.1).1, (key _ _ isWriteMk_write h1.1).2, h1.2⟩

theorem String_writes {σ E : Type} (w : Sink σ E) (st : σ) (elems : List GoString)
    (sep : GoString) :
    writes (String (record w) (st, []) elems sep).1.2
      = callsSeq (stringMk w) (stringWrite w) (preState w st elems sep) (pieces elems sep) := by
  rw [(String_run w st elems sep).1, writes, List.filter_append]
  have h1 : List.filter Call.isWrite (growCalls w elems sep : List (Call E)) = [] :=
    writes_growCalls w elems sep
  have h2 := writes_callsSeq (isWriteMk_stringMk w) (stringWrite w) (pieces elems sep)
    (preState w st elems sep)
  unfold writes at h2
  rw [h1, h2, List.nil_append]

theorem Bytes_writes {σ E : Type} (w : Sink σ E) (st : σ) (elems : List ByteSlice)
    (sep : ByteSlice) :
    writes (Bytes (record w) (st, []) elems sep).1.2
      = callsSeq Call.write w.Write (preState w st elems sep) (pieces elems sep) := by
  rw [(Bytes_run w st elems sep).1, writes, List.filter_append]
  have h1 : List.filter Call.isWrite (growCalls w elems sep : List (Call E)) = [] :=
    writes_growCalls w elems sep
  have h2 := writes_callsSeq (isWriteMk_write (E := E)) w.Write (pieces elems sep)
    (preState w st elems sep)
  unfold writes at h2
  rw [h1, h2, List.nil_append]

/-- C12, the count is the sum of the reported counts: in any call of `String` or `Bytes`,
on a sink of any behaviour, the returned count is the `int64` sum of the counts reported
by all the write calls issued (their exact sum whenever that fits in an `int64`); and a
write that reports no error, whatever count it reports, does not stop the join: the
next piece is written, the arguments of the writes issued are the leading pieces of
`[elems[0], sep, elems[1], ..., elems[n-1]]`, and all of them when no write reports an
error. -/
theorem count_is_sum_of_reported {σ E : Type} (w : Sink σ E) (st : σ)
    (elems : List (List UInt8)) (sep : List UInt8) (r : (σ × List (Call E)) × I64 × Option E)
    (hr : r = String (record w) (st, []) elems sep ∨ r = Bytes (record w) (st, []) elems sep) :
    r.2.1 = sum64 ((writes r.1.2).map Call.count) ∧
      (-9223372036854775808 ≤ ((writes r.1.2).map (fun x => x.count.val)).sum →
        ((writes r.1.2).map (fun x => x.count.val)).sum < 9223372036854775808 →
        r.2.1.val = ((writes r.1.2).map (fun x => x.count.val)).sum) ∧
      (∀ k c, (writes r.1.2)[k]? = some c → c.err = none →
        k + 1 < (pieces elems sep).length → k + 1 < (writes r.1.2).length) ∧
      (writes r.1.2).map Call.arg = (pieces elems sep).take (writes r.1.2).length ∧
      ((∀ c ∈ writes r.1.2, c.err = none) →
        (writes r.1.2).map Call.arg = pieces elems sep) := by
  have hcount := isRun_count (isRun_of_or w st elems sep r hr)
  obtain ⟨mk, wr, hmk, _, hw, _, _⟩ := run_pieces w st elems sep r hr
  refine ⟨hcount, ?_, ?_, ?_, ?_⟩
  · intro h1 h2
    rw [hcount, sum64_val, List.map_map]
    exact wrap64_of_range h1 h2
  · intro k c hk hc hlt
    rw [hw] at hk ⊢
    exact callsSeq_continue hmk wr _ _ k c hk hc hlt
  · rw [hw]
    exact callsSeq_args_take hmk wr _ _
  · intro h
    rw [hw] at h ⊢
    exact callsSeq_args_of_no_err hmk wr _ _ h

/-- The count on a buffer that keeps one byte of each write and reports no error, at
`["xx", "yy"]` and `"/"`: the three writes are all issued and the count is `1 + 1 + 1`. -/
theorem count_is_sum_of_reported_witness :
    writes (String (record (shortWriter Unit true true)) ([], []) xxyy slash).1.2
        = [Call.writeString [120, 120] 1 none, Call.writeString [47] 1 none,
            Call.writeString [121, 121] 1 none] ∧
      (String (record (shortWriter Unit true true)) ([], []) xxyy slash).2.1.val = 3 ∧
      (writes (String (record (shortWriter Unit true true)) ([], []) xxyy slash).1.2).map
          Call.arg = pieces xxyy slash :=
  ⟨by decide,
    (count_is_sum_of_reported (shortWriter Unit true true) [] xxyy slash _ (Or.inl rfl)).2.1
      (by decide) (by decide),
    (count_is_sum_of_reported (shortWriter Unit true true) [] xxyy slash _
      (Or.inl rfl)).2.2.2.2 (by decide)⟩

/-! ## When the reservation happens -/

theorem growCalls_of_grow {σ E : Type} (w : Sink σ E) (g : σ → I64 → σ) (hg : w.Grow = some g)
    (elems : List (List UInt8)) (sep : List UInt8) (h : 2 ≤ elems.length) :
    (growCalls w elems sep : List (Call E)) = [Call.grow (growHint elems sep)] := by
  match elems, h with
  | _ :: _ :: _, _ => simp [growCalls, hg]

theorem growCalls_of_short {σ E : Type} (w : Sink σ E) (elems : List (List UInt8))
    (sep : List UInt8) (h : elems.length ≤ 1) : (growCalls w elems sep : List (Call E)) = [] := by
  match elems, h with
  | [], _ => rfl
  | [_], _ => rfl

theorem growCalls_of_none {σ E : Type} (w : Sink σ E) (hg : w.Grow = none)
    (elems : List (List UInt8)) (sep : List UInt8) :
    (growCalls w elems sep : List (Call E)) = [] := by
  unfold growCalls
  split
  · rename_i h
    rw [hg] at h
    simp at h
  · rfl

theorem preState_of_none {σ E : Type} (w : Sink σ E) (hg : w.Grow = none) (st : σ)
    (elems : List (List UInt8)) (sep : List UInt8) : preState w st elems sep = st := by
  unfold preState
  split
  · simp [reserve, hg]
  · rfl

theorem preState_withGrow_id {σ E : Type} (w : Sink σ E) (st : σ)
    (elems : List (List UInt8)) (sep : List UInt8) :
    preState (withGrow w (some (fun s _ => s))) st elems sep = st := by
  unfold preState
  split
  · rfl
  · rfl

theorem pieces_ne_nil (elems : List (List UInt8)) (sep : List UInt8) (h : 1 ≤ elems.length) :
    ∃ p ps, pieces elems sep = p :: ps := by
  cases elems with
  | nil => simp at h
  | cons e rest => exact ⟨e, interleave sep rest, rfl⟩

/-- C13, the timing of the reservation: in any call of `String` or `Bytes` with two
elements or more on a sink that has `Grow`, the first call on the sink is `Grow`, it is
the only `Grow` call, and every write call comes after it (at least one does); with one
element or none `Grow` is never called; and on a sink without `Grow` no reservation
happens, every call is a write, and result and writes are those on the same sink with a
`Grow` that does nothing. -/
theorem reservation_timing {σ E : Type} (w : Sink σ E) (st : σ)
    (elems : List (List UInt8)) (sep : List UInt8) (r : (σ × List (Call E)) × I64 × Option E)
    (hr : r = String (record w) (st, []) elems sep ∨ r = Bytes (record w) (st, []) elems sep) :
    (∀ g, w.Grow = some g → 2 ≤ elems.length →
        r.1.2.head? = some (Call.grow (growHint elems sep)) ∧
          grows r.1.2 = [growHint elems sep] ∧
          writes r.1.2 = r.1.2.tail ∧
          1 ≤ (writes r.1.2).length) ∧
      (elems.length ≤ 1 → grows r.1.2 = []) ∧
      (w.Grow = none →
        grows r.1.2 = [] ∧ writes r.1.2 = r.1.2 ∧
          String w st elems sep = String (withGrow w (some (fun s _ => s))) st elems sep ∧
          Bytes w st elems sep = Bytes (withGrow w (some (fun s _ => s))) st elems sep ∧
          writes (String (record w) (st, []) elems sep).1.2
            = writes (String (record (withGrow w (some (fun s _ => s)))) (st, []) elems sep).1.2 ∧
          writes (Bytes (record w) (st, []) elems sep).1.2
            = writes (Bytes (record (withGrow w (some (fun s _ => s)))) (st, []) elems sep).1.2) := by
  obtain ⟨mk, wr, hmk, hlog, hw, hg, _⟩ := run_pieces w st elems sep r hr
  refine ⟨?_, ?_, ?_⟩
  · intro g hgrow hlen
    have hgc := growCalls_of_grow w g hgrow elems sep hlen
    obtain ⟨p, ps, hps⟩ := pieces_ne_nil elems sep (by omega)
    refine ⟨?_, ?_, ?_, ?_⟩
    · rw [hlog, hgc]; rfl
    · rw [hg, hgc]; rfl
    · rw [hw, hlog, hgc]; rfl
    · rw [hw, hps]; exact callsSeq_length_pos mk wr p ps _
  · intro hlen
    rw [hg, growCalls_of_short w elems sep hlen]
    rfl
  · intro hnone
    have hgc := growCalls_of_none w hnone elems sep
    refine ⟨?_, ?_, ?_, ?_, ?_, ?_⟩
    · rw [hg, hgc]; rfl
    · rw [hw, hlog, hgc]; rfl
    · rw [String_eq_writeSeq, String_eq_writeSeq, preState_of_none w hnone,
        preState_withGrow_id]
      rfl
    · rw [Bytes_eq_writeSeq, Bytes_eq_writeSeq, preState_of_none w hnone,
        preState_withGrow_id]
      rfl
    · rw [String_writes, String_writes, preState_of_none w hnone, preState_withGrow_id]
      rfl
    · rw [Bytes_writes, Bytes_writes, preState_of_none w hnone, preState_withGrow_id]
      rfl

/-- The timing on the test buffer at `["x", "y", "z"]` and `"/"`: `Grow(5)` comes first,
once, and the five writes follow; on the writer without `Grow` every call is a write. -/
theorem reservation_timing_witness :
    (buffer Unit).Grow = some bufferGrow ∧
      2 ≤ xyz.length ∧
      (String (record (buffer Unit)) ([], []) xyz slash).1.2.head? = some (Call.grow 5) ∧
      grows (String (record (buffer Unit)) ([], []) xyz slash).1.2 = [5] ∧
      (writes (String (record (buffer Unit)) ([], []) xyz slash).1.2).length = 5 ∧
      (noGrow Unit).Grow = none ∧
      grows (Bytes (record (noGrow Unit)) ([], []) xyz slash).1.2 = [] :=
  ⟨rfl, by decide,
    ((reservation_timing (buffer Unit) [] xyz slash _ (Or.inl rfl)).1 bufferGrow rfl
      (by decide)).1,
    ((reservation_timing (buffer Unit) [] xyz slash _ (Or.inl rfl)).1 bufferGrow rfl
      (by decide)).2.1,
    by decide, rfl,
    ((reservation_timing (noGrow Unit) [] xyz slash _ (Or.inr rfl)).2.2 rfl).1⟩

/-! ## Which method the writes go through -/

theorem stringMk_of_some {σ E : Type} (w : Sink σ E) (sw : WriteFn σ E)
    (h : w.WriteString = some sw) : stringMk w = Call.writeString := by
  simp [stringMk, h]

theorem stringMk_of_none {σ E : Type} (w : Sink σ E) (h : w.WriteString = none) :
    stringMk w = Call.write := by
  simp [stringMk, h]

theorem stringWrite_of_none {σ E : Type} (w : Sink σ E) (h : w.WriteString = none) :
    stringWrite w = w.Write := by
  simp [stringWrite, h]

theorem String_eq_Bytes_of_none {σ E : Type} (w : Sink σ E) (h : w.WriteString = none)
    (st : σ) (elems : List GoString) (sep : GoString) :
    String w st elems sep = Bytes w st (cvtElems elems) (toBytes sep) := by
  rw [String_eq_writeSeq, Bytes_eq_writeSeq, stringWrite_of_none w h, cvtElems, map_toBytes]
  rfl

/-- C14, the text dispatch is decided once per call: when the sink has `WriteString`,
every write `String` issues, element or separator, up to the first failing one, goes
through `WriteString` and none through `Write`; when it has not, every write goes
through `Write`, with the byte conversion of the element or of the separator as its
argument; no call of `String` mixes the two methods. -/
theorem text_dispatch {σ E : Type} (w : Sink σ E) (st : σ) (elems : List GoString)
    (sep : GoString) :
    (∀ sw, w.WriteString = some sw →
        ∀ c ∈ (String (record w) (st, []) elems sep).1.2,
          c.isWrite = true → c.viaWriteString = true ∧ c.viaWrite = false) ∧
      (w.WriteString = none →
        (∀ c ∈ (String (record w) (st, []) elems sep).1.2,
          c.isWrite = true → c.viaWrite = true ∧ c.viaWriteString = false) ∧
        (writes (String (record w) (st, []) elems sep).1.2).map Call.arg
          = (pieces (elems.map toBytes) (toBytes sep)).take
              (writes (String (record w) (st, []) elems sep).1.2).length) ∧
      ((∀ c ∈ writes (String (record w) (st, []) elems sep).1.2, c.viaWriteString = true) ∨
        (∀ c ∈ writes (String (record w) (st, []) elems sep).1.2, c.viaWrite = true)) := by
  have hmem : ∀ c, c ∈ (String (record w) (st, []) elems sep).1.2 → c.isWrite = true →
      ∃ p n e, c = stringMk w p n e := by
    intro c hc hw
    have h1 : c ∈ writes (String (record w) (st, []) elems sep).1.2 := by
      unfold writes
      exact List.mem_filter.mpr ⟨hc, hw⟩
    rw [String_writes] at h1
    exact callsSeq_mem _ _ _ _ c h1
  have hsome : ∀ sw, w.WriteString = some sw →
      ∀ c ∈ (String (record w) (st, []) elems sep).1.2,
        c.isWrite = true → c.viaWriteString = true ∧ c.viaWrite = false := by
    intro sw hs c hc hw
    obtain ⟨p, n, e, rfl⟩ := hmem c hc hw
    rw [stringMk_of_some w sw hs]
    exact ⟨rfl, rfl⟩
  have hnone : w.WriteString = none →
      ∀ c ∈ (String (record w) (st, []) elems sep).1.2,
        c.isWrite = true → c.viaWrite = true ∧ c.viaWriteString = false := by
    intro hs c hc hw
    obtain ⟨p, n, e, rfl⟩ := hmem c hc hw
    rw [stringMk_of_none w hs]
    exact ⟨rfl, rfl⟩
  have hsub : ∀ c, c ∈ writes (String (record w) (st, []) elems sep).1.2 →
      c ∈ (String (record w) (st, []) elems sep).1.2 ∧ c.isWrite = true := by
    intro c hc
    unfold writes at hc
    exact List.mem_filter.mp hc
  refine ⟨hsome, ?_, ?_⟩
  · intro hs
    refine ⟨hnone hs, ?_⟩
    rw [String_writes, map_toBytes, toBytes]
    exact callsSeq_args_take (isWriteMk_stringMk w) _ _ _
  · cases hs : w.WriteString with
    | none => exact Or.inr (fun c hc => (hnone hs c (hsub c hc).1 (hsub c hc).2).1)
    | some sw => exact Or.inl (fun c hc => (hsome sw hs c (hsub c hc).1 (hsub c hc).2).1)

/-- The dispatch of `String` at `["x", "y", "z"]` and `"/"`: five `WriteString` calls on the
test buffer, five `Write` calls on the writer without `WriteString`. -/
theorem text_dispatch_witness :
    (buffer Unit).WriteString = some bufferWrite ∧
      (Call.writeString [47] 1 none : Call Unit)
        ∈ (String (record (buffer Unit)) ([], []) xyz slash).1.2 ∧
      (Call.writeString [47] 1 none : Call Unit).viaWriteString = true ∧
      (noWriteString Unit).WriteString = none ∧
      (writes (String (record (noWriteString Unit)) ([], []) xyz slash).1.2).map Call.arg
        = (pieces (xyz.map toBytes) (toBytes slash)).take
            (writes (String (record (noWriteString Unit)) ([], []) xyz slash).1.2).length ∧
      writes (String (record (noWriteString Unit)) ([], []) xyz slash).1.2
        = [Call.write [120] 1 none, Call.write [47] 1 none, Call.write [121] 1 none,
            Call.write [47] 1 none, Call.write [122] 1 none] :=
  ⟨rfl, by decide,
    ((text_dispatch (buffer Unit) [] xyz slash).1 bufferWrite rfl
      (Call.writeString [47] 1 none) (by decide) rfl).1,
    rfl,
    ((text_dispatch (noWriteString Unit) [] xyz slash).2.1 rfl).2,
    by decide⟩

/-- C15, the binary variant ignores `WriteString`: on every sink, also one whose
`WriteString` behaves differently from its `Write`, no call `Bytes` makes is a
`WriteString`, every write it issues goes through `Write`, and its result is the same
whatever `WriteString` method the sink has, or none. -/
theorem bytes_ignores_text_acceptor {σ E : Type} (w : Sink σ E) (st : σ)
    (elems : List ByteSlice) (sep : ByteSlice) :
    (∀ c ∈ (Bytes (record w) (st, []) elems sep).1.2, c.viaWriteString = false) ∧
      (∀ c ∈ (Bytes (record w) (st, []) elems sep).1.2, c.isWrite = true → c.viaWrite = true) ∧
      (∀ ws, Bytes (withWriteString w ws) st elems sep = Bytes w st elems sep) ∧
      (∀ ws, (Bytes (record (withWriteString w ws)) (st, []) elems sep).1.2
        = (Bytes (record w) (st, []) elems sep).1.2) := by
  have hlog := (Bytes_run w st elems sep).1
  have hmem : ∀ c, c ∈ (Bytes (record w) (st, []) elems sep).1.2 →
      (∃ n, c = Call.grow n) ∨ ∃ p n e, c = Call.write p n e := by
    intro c hc
    rw [hlog, List.mem_append] at hc
    rcases hc with hc | hc
    · left
      unfold growCalls at hc
      split at hc
      · exact ⟨_, List.mem_singleton.mp hc⟩
      · simp at hc
    · right
      exact callsSeq_mem _ _ _ _ c hc
  refine ⟨?_, ?_, ?_, ?_⟩
  · intro c hc
    rcases hmem c hc with ⟨n, rfl⟩ | ⟨p, n, e, rfl⟩ <;> rfl
  · intro c hc hw
    rcases hmem c hc with ⟨n, rfl⟩ | ⟨p, n, e, rfl⟩
    · simp [Call.isWrite] at hw
    · rfl
  · intro ws
    rw [Bytes_eq_writeSeq, Bytes_eq_writeSeq]
    rfl
  · intro ws
    rw [(Bytes_run (withWriteString w ws) st elems sep).1, hlog]
    rfl

/-- The binary variant on a sink whose `WriteString` drops the data and fails, at
`["x", "y", "z"]` and `"/"`: `Bytes` writes `"x/y/z"` through `Write`, where `String` fails
at its first `WriteString`. -/
theorem bytes_ignores_text_acceptor_witness :
    Bytes splitWriter [] xyz slash = ([120, 47, 121, 47, 122], 5, none) ∧
      String splitWriter [] xyz slash = ([], 0, some TestError.full) ∧
      (Call.write [47] 1 none : Call TestError)
        ∈ (Bytes (record splitWriter) ([], []) xyz slash).1.2 ∧
      (Call.write [47] 1 none : Call TestError).viaWriteString = false :=
  ⟨by decide, by decide, by decide,
    (bytes_ignores_text_acceptor splitWriter [] xyz slash).1 (Call.write [47] 1 none)
      (by decide)⟩

/-- C16, `String` and `Bytes` agree: on a sink without `WriteString`, of any write
behaviour, `String(w, elems, sep)` and `Bytes` on the element-wise byte conversion of
`elems` and the byte conversion of `sep` make the same `Grow` and `Write` calls with the
same arguments in the same order, leave the sink in the same state, and return the
same count and the same error. -/
theorem String_Bytes_agree {σ E : Type} (w : Sink σ E) (h : w.WriteString = none) (st : σ)
    (elems : List GoString) (sep : GoString) :
    String (record w) (st, []) elems sep
        = Bytes (record w) (st, []) (cvtElems elems) (toBytes sep) ∧
      String w st elems sep = Bytes w st (cvtElems elems) (toBytes sep) :=
  ⟨String_eq_Bytes_of_none (record w) (by simp [record, h]) (st, []) elems sep,
    String_eq_Bytes_of_none w h st elems sep⟩

/-- The agreement on a two-byte buffer without `WriteString`, at `["x", "y", "z"]` and
`"/"`: both make `Grow(5)` and three writes and return `(2, full)`. -/
theorem String_Bytes_agree_witness :
    (limitedWriter 2 true false).WriteString = none ∧
      Bytes (record (limitedWriter 2 true false)) ([], []) (cvtElems xyz) (toBytes slash)
        = (([120, 47], [Call.grow 5, Call.write [120] 1 none, Call.write [47] 1 none,
            Call.write [121] 0 (some TestError.full)]), 2, some TestError.full) ∧
      String (record (limitedWriter 2 true false)) ([], []) xyz slash
        = Bytes (record (limitedWriter 2 true false)) ([], []) (cvtElems xyz) (toBytes slash) :=
  ⟨rfl, by decide, (String_Bytes_agree (limitedWriter 2 true false) rfl [] xyz slash).1⟩

/-! ## The output is a leading part of the join -/

theorem writeSeq_contract {σ E : Type} (wr : WriteFn σ E) (content : σ → List UInt8)
    (hwr : ObeysContract content wr) (ps : List (List UInt8)) (st : σ) (acc : I64) :
    ∃ out rest : List UInt8, out ++ rest = ps.flatten ∧
      content (writeSeq wr st acc ps).1 = content st ++ out ∧
      (writeSeq wr st acc ps).2.1 = acc + I64.ofInt out.length := by
  induction ps generalizing st acc with
  | nil =>
    exact ⟨[], [], rfl, by simp [writeSeq], by simp [writeSeq, I64.add_ofInt, I64.ofInt_self]⟩
  | cons p ps ih =>
    obtain ⟨m, hm, hcont, hn, herr⟩ := hwr st p
    simp only [writeSeq]
    rcases h1 : wr st p with ⟨st1, n, _ | err⟩
    · rw [h1] at hcont hn herr
      simp only [] at hcont hn herr ⊢
      have hfull : m = p.length := by
        by_contra hne
        exact herr (by omega) rfl
      rw [hfull, List.take_length] at hcont
      obtain ⟨out, rest, hsplit, hc, hcount⟩ := ih st1 (acc + n)
      refine ⟨p ++ out, rest, ?_, ?_, ?_⟩
      · rw [List.flatten_cons, List.append_assoc, hsplit]
      · rw [hc, hcont, List.append_assoc]
      · rw [hcount, hn, hfull, I64.add_assoc, I64.ofInt_add, List.length_append]
        simp
    · rw [h1] at hcont hn
      simp only [] at hcont hn ⊢
      refine ⟨p.take m, p.drop m ++ ps.flatten, ?_, hcont, ?_⟩
      · rw [List.flatten_cons, ← List.append_assoc, List.take_append_drop]
      · rw [hn, List.length_take, Nat.min_eq_left hm]

theorem contractSink_stringWrite {σ E : Type} {w : Sink σ E} {content : σ → List UInt8}
    (h : ContractSink w content) : ObeysContract content (stringWrite w) := by
  unfold stringWrite
  cases hs : w.WriteString with
  | none => exact h.write
  | some sw => exact h.writeString sw hs

theorem contractSink_preState {σ E : Type} {w : Sink σ E} {content : σ → List UInt8}
    (h : ContractSink w content) (st : σ) (elems : List (List UInt8)) (sep : List UInt8) :
    content (preState w st elems sep) = content st := by
  unfold preState
  split
  · unfold reserve
    cases hg : w.Grow with
    | none => rfl
    | some g => exact h.grow g hg st _
  · rfl

theorem limitedWrite_contract (cap : Nat) : ObeysContract id (limitedWrite cap) := by
  intro st p
  refine ⟨min p.length (cap - st.length), Nat.min_le_left _ _, rfl, rfl, ?_⟩
  intro hlt
  simp [limitedWrite, hlt]

theorem contractSink_limitedWriter (cap : Nat) (hasGrow hasWriteString : Bool) :
    ContractSink (limitedWriter cap hasGrow hasWriteString) id := by
  constructor
  · exact limitedWrite_contract cap
  · intro sw h
    cases hasWriteString
    · simp [limitedWriter, sinkOf] at h
    · simp only [limitedWriter, sinkOf, if_true, Option.some.injEq] at h
      subst h
      exact limitedWrite_contract cap
  · intro g h st n
    cases hasGrow
    · simp [limitedWriter, sinkOf] at h
    · simp only [limitedWriter, sinkOf, if_true, Option.some.injEq] at h
      subst h
      rfl

theorem output_of_contract {σ E : Type} (wr : WriteFn σ E) (content : σ → List UInt8)
    (hwr : ObeysContract content wr) (st0 st : σ) (hst : content st = content st0)
    (elems : List (List UInt8)) (sep : List UInt8) :
    ∃ out rest : List UInt8, out ++ rest = join elems sep ∧
      content (writeSeq wr st 0 (pieces elems sep)).1 = content st0 ++ out ∧
      (writeSeq wr st 0 (pieces elems sep)).2.1 = I64.ofInt out.length ∧
      ((join elems sep).length < 9223372036854775808 →
        (writeSeq wr st 0 (pieces elems sep)).2.1.val = out.length) := by
  obtain ⟨out, rest, hsplit, hc, hcount⟩ := writeSeq_contract wr content hwr
    (pieces elems sep) st 0
  rw [pieces_flatten] at hsplit
  rw [I64.zero_add] at hcount
  refine ⟨out, rest, hsplit, by rw [hc, hst], hcount, ?_⟩
  intro hlt
  rw [hcount]
  apply ofInt_val_of_lt
  have : out.length ≤ (join elems sep).length := by
    rw [← hsplit, List.length_append]
    omega
  omega

/-- C17, the output is always a leading part of the join: on a sink that obeys the
`io.Writer` contract on an append buffer (each write appends the first `m` bytes of its
data for some `m` up to the length, reports `m`, and reports a non-nil error whenever
`m` is less than the length), after `String` or `Bytes` returns, with or without an
error, the bytes it appended are a leading part `out` of `join(elems, sep)` (the join is
`out` followed by some `rest`) and the returned count is the number of bytes appended
(`len` of them as an `int64`, which is that number itself whenever the join is a Go
value, with fewer than `2^63` bytes). -/
theorem output_is_leading_part {σ E : Type} (w : Sink σ E) (content : σ → List UInt8)
    (h : ContractSink w content) (st : σ) (elems : List (List UInt8)) (sep : List UInt8) :
    (∃ out rest : List UInt8, out ++ rest = join elems sep ∧
        content (String w st elems sep).1 = content st ++ out ∧
        (String w st elems sep).2.1 = I64.ofInt out.length ∧
        ((join elems sep).length < 9223372036854775808 →
          (String w st elems sep).2.1.val = out.length)) ∧
      (∃ out rest : List UInt8, out ++ rest = join elems sep ∧
        content (Bytes w st elems sep).1 = content st ++ out ∧
        (Bytes w st elems sep).2.1 = I64.ofInt out.length ∧
        ((join elems sep).length < 9223372036854775808 →
          (Bytes w st elems sep).2.1.val = out.length)) := by
  constructor
  · rw [String_eq_writeSeq]
    exact output_of_contract (stringWrite w) content (contractSink_stringWrite h) st _
      (contractSink_preState h st elems sep) elems sep
  · rw [Bytes_eq_writeSeq]
    exact output_of_contract w.Write content h.write st _
      (contractSink_preState h st elems sep) elems sep

/-- The output on a buffer that holds two bytes, at `["x", "y", "z"]` and `"/"`: `"x/"`,
the first two bytes of `"x/y/z"`, with the count 2 and the error `full`. -/
theorem output_is_leading_part_witness :
    ContractSink (limitedWriter 2 true true) id ∧
      String (limitedWriter 2 true true) [] xyz slash = ([120, 47], 2, some TestError.full) ∧
      [120, 47] ++ [121, 47, 122] = join xyz slash ∧
      (∃ out rest : List UInt8, out ++ rest = join xyz slash ∧
        id (String (limitedWriter 2 true true) [] xyz slash).1 = id [] ++ out ∧
        (String (limitedWriter 2 true true) [] xyz slash).2.1 = I64.ofInt out.length ∧
        ((join xyz slash).length < 9223372036854775808 →
          (String (limitedWriter 2 true true) [] xyz slash).2.1.val = out.length)) :=
  ⟨contractSink_limitedWriter 2 true true, by decide, by decide,
    (output_is_leading_part (limitedWriter 2 true true) id
      (contractSink_limitedWriter 2 true true) [] xyz slash).1⟩

end jointo
